import Mathlib

/-!
Shallow embedding of the neisan-mongo core: the extended-value transcoder
(`encode`/`decode`), the structural change-set differencer (`changes` with
its `UpdateFilter` accumulator), and the predicate-aware lazy cursor
(`FindCursor`), together with the `updateOne` collection operation.

JavaScript runtime values are modelled by the inductive type `Value`:
primitives, `ObjectId` and `Date` instances (atoms for the wire format),
arrays, `Set`/`Map` instances, and plain objects as ordered field lists.
`undefined` is the `jsUndefined` constructor.  Functions that throw
(`assert` failures, malformed-tag errors) return `Option`, with `none`
for the thrown exception.
-/

namespace NeisanMongo

/-- A JavaScript runtime value as seen by the transcoder and differencer:
primitives, ObjectId / Date atoms, arrays, Sets, Maps (as insertion-ordered
entry lists) and plain objects (as ordered string-keyed field lists). -/
inductive Value where
  | str (s : String)
  | num (n : Int)
  | bool (b : Bool)
  | null
  | jsUndefined
  | oid (n : Nat)
  | date (n : Int)
  | arr (elems : List Value)
  | set (elems : List Value)
  | map (entries : List (Value × Value))
  | obj (fields : List (String × Value))

mutual

/-- Structural deep equality of values (the model of
`assert.deepStrictEqual`-based `equal` from utils). -/
def beqV : Value → Value → Bool
  | .str a, b => match b with | .str c => a == c | _ => false
  | .num a, b => match b with | .num c => a == c | _ => false
  | .bool a, b => match b with | .bool c => a == c | _ => false
  | .null, b => match b with | .null => true | _ => false
  | .jsUndefined, b => match b with | .jsUndefined => true | _ => false
  | .oid a, b => match b with | .oid c => a == c | _ => false
  | .date a, b => match b with | .date c => a == c | _ => false
  | .arr l, b => match b with | .arr m => beqListV l m | _ => false
  | .set l, b => match b with | .set m => beqListV l m | _ => false
  | .map l, b => match b with | .map m => beqPairsV l m | _ => false
  | .obj l, b => match b with | .obj m => beqFieldsV l m | _ => false
termination_by structural a _ => a

/-- Deep equality on lists of values. -/
def beqListV : List Value → List Value → Bool
  | [], m => match m with | [] => true | _ => false
  | a :: as, m => match m with | b :: bs => beqV a b && beqListV as bs | _ => false
termination_by structural a _ => a

/-- Deep equality on entry lists. -/
def beqPairsV : List (Value × Value) → List (Value × Value) → Bool
  | [], m => match m with | [] => true | _ => false
  | (k1, v1) :: as, m =>
    match m with
    | (k2, v2) :: bs => beqV k1 k2 && beqV v1 v2 && beqPairsV as bs
    | _ => false
termination_by structural a _ => a

/-- Deep equality on field lists. -/
def beqFieldsV : List (String × Value) → List (String × Value) → Bool
  | [], m => match m with | [] => true | _ => false
  | (k1, v1) :: as, m =>
    match m with
    | (k2, v2) :: bs => k1 == k2 && beqV v1 v2 && beqFieldsV as bs
    | _ => false
termination_by structural a _ => a

end

/-- `EJSONCompatible` from utils: non-object primitives, `null`, and the
driver instances (ObjectId, Date, ...) that the wire format carries
natively.  `undefined` (typeof "undefined") is not compatible. -/
def EJSONCompatible : Value → Bool
  | .str _ => true
  | .num _ => true
  | .bool _ => true
  | .null => true
  | .jsUndefined => false
  | .oid _ => true
  | .date _ => true
  | .arr _ => false
  | .set _ => false
  | .map _ => false
  | .obj _ => false

mutual

/-- `encode` from utils: EJSON-compatible values pass through unchanged,
arrays encode elementwise, Sets become `{_JSSet: [...]}`, Maps become
`{_JSMap: [[k,v],...]}`, and plain objects encode field by field.
`undefined` fails the object assertion, modelled by `none`. -/
def encode : Value → Option Value
  | .str s => some (.str s)
  | .num n => some (.num n)
  | .bool b => some (.bool b)
  | .null => some .null
  | .jsUndefined => none
  | .oid n => some (.oid n)
  | .date n => some (.date n)
  | .arr l =>
    match encodeList l with
    | some es => some (.arr es)
    | none => none
  | .set l =>
    match encodeList l with
    | some es => some (.obj [("_JSSet", .arr es)])
    | none => none
  | .map l =>
    match encodePairs l with
    | some es => some (.obj [("_JSMap", .arr es)])
    | none => none
  | .obj fs =>
    match encodeFields fs with
    | some es => some (.obj es)
    | none => none

/-- Elementwise encoding of an array. -/
def encodeList : List Value → Option (List Value)
  | [] => some []
  | v :: vs =>
    match encode v, encodeList vs with
    | some e, some es => some (e :: es)
    | _, _ => none

/-- Encoding of a Map's `[key, value]` entry arrays. -/
def encodePairs : List (Value × Value) → Option (List Value)
  | [] => some []
  | (k, v) :: ps =>
    match encode k, encode v, encodePairs ps with
    | some ek, some ev, some es => some (.arr [ek, ev] :: es)
    | _, _, _ => none

/-- Fieldwise encoding of a plain object. -/
def encodeFields : List (String × Value) → Option (List (String × Value))
  | [] => some []
  | (k, v) :: fs =>
    match encode v, encodeFields fs with
    | some e, some es => some ((k, e) :: es)
    | _, _ => none

end

mutual

/-- `decode` from utils: EJSON-compatible values pass through, arrays decode
elementwise, and objects are scanned entry by entry in insertion order.  An
entry keyed `_JSSet` (resp. `_JSMap`) whose payload is an array returns an
early Set (resp. Map) built from the decoded payload, discarding every other
entry; a tag key with a non-array payload fails the assertion (`none`). -/
def decode : Value → Option Value
  | .str s => some (.str s)
  | .num n => some (.num n)
  | .bool b => some (.bool b)
  | .null => some .null
  | .jsUndefined => none
  | .oid n => some (.oid n)
  | .date n => some (.date n)
  | .arr l =>
    match decodeList l with
    | some ds => some (.arr ds)
    | none => none
  | .set _ => some (.obj [])
  | .map _ => some (.obj [])
  | .obj fs => decodeEntries fs

/-- Elementwise decoding of an array. -/
def decodeList : List Value → Option (List Value)
  | [] => some []
  | v :: vs =>
    match decode v, decodeList vs with
    | some d, some ds => some (d :: ds)
    | _, _ => none

/-- Decoding of a `_JSMap` payload: each element decodes to a `[key, value]`
array whose first two components become the Map entry (missing components
are `undefined`, mirroring array destructuring). -/
def decodeMapPairs : List Value → Option (List (Value × Value))
  | [] => some []
  | e :: es =>
    match decode e with
    | some (.arr (k :: v :: _)) =>
      match decodeMapPairs es with
      | some ps => some ((k, v) :: ps)
      | none => none
    | some (.arr [k]) =>
      match decodeMapPairs es with
      | some ps => some ((k, .jsUndefined) :: ps)
      | none => none
    | some (.arr []) =>
      match decodeMapPairs es with
      | some ps => some ((.jsUndefined, .jsUndefined) :: ps)
      | none => none
    | _ => none

/-- The entry loop of `decode` over a plain object, with the early tag-key
returns. -/
def decodeEntries : List (String × Value) → Option Value
  | [] => some (.obj [])
  | (k, v) :: rest =>
    if k = "_JSSet" then
      match v with
      | .arr l =>
        match decodeList l with
        | some ds => some (.set ds)
        | none => none
      | _ => none
    else if k = "_JSMap" then
      match v with
      | .arr l =>
        match decodeMapPairs l with
        | some ps => some (.map ps)
        | none => none
      | _ => none
    else
      match decode v, decodeEntries rest with
      | some d, some (.obj fs) => some (.obj ((k, d) :: fs))
      | some _, some early => some early
      | _, _ => none

end

/-! ## The structural change-set differencer -/

/-- `RecordLike` from utils: a non-null, non-array object. -/
def RecordLike : Value → Bool
  | .oid _ => true
  | .date _ => true
  | .set _ => true
  | .map _ => true
  | .obj _ => true
  | _ => false

/-- `Object.entries` of a value: the own enumerable entries.  Plain objects
expose their fields; Sets, Maps and driver instances have none. -/
def jsEntries : Value → List (String × Value)
  | .obj fs => fs
  | _ => []

/-- JavaScript property read `a[k]`: the first matching field of a plain
object, `undefined` otherwise. -/
def jsGet (a : Value) (k : String) : Value :=
  match a with
  | .obj fs => ((fs.find? (fun kv => kv.1 == k)).map Prod.snd).getD .jsUndefined
  | _ => .jsUndefined

/-- Dot-delimited path extension: `prefix ? prefix.k : k`. -/
def pathStr (pfx k : String) : String :=
  if pfx = "" then k else pfx ++ "." ++ k

/-- `Array.prototype.at` with the out-of-range `undefined`. -/
def atOpt (l : List Value) (i : Nat) : Value :=
  (l.get? i).getD .jsUndefined

/-- Scan of a leftover `b`-side tail: the first element not deep-equal to the
`undefined` read off the end of the shorter list. -/
def firstOffUndef : List Value → Nat → Option Nat
  | [], _ => none
  | b :: bs, i =>
    if beqV .jsUndefined b then firstOffUndef bs (i + 1) else some i

/-- The first index `i < max(|a|, |b|)` where `a.at(i)` and `b.at(i)` are not
deep-equal (out-of-range reads compare as `undefined`). -/
def firstDiffListAux : List Value → List Value → Nat → Option Nat
  | [], bs, i => firstOffUndef bs i
  | a :: as, bs, i =>
    match bs with
    | [] =>
      if beqV a .jsUndefined then firstDiffListAux as [] (i + 1) else some i
    | b :: rest =>
      if beqV a b then firstDiffListAux as rest (i + 1) else some i

/-- First differing index of two element lists. -/
def firstDiffList (a b : List Value) : Option Nat :=
  firstDiffListAux a b 0

/-- The first index where two Map entry lists differ (entries compare as
`[key, value]` arrays; an out-of-range read is `undefined` and never equals
an entry array). -/
def firstDiffPairsAux :
    List (Value × Value) → List (Value × Value) → Nat → Option Nat
  | [], bs, i => match bs with | [] => none | _ :: _ => some i
  | (k1, v1) :: as, bs, i =>
    match bs with
    | [] => some i
    | (k2, v2) :: rest =>
      if beqV k1 k2 && beqV v1 v2 then firstDiffPairsAux as rest (i + 1)
      else some i

/-- First differing index of two entry lists. -/
def firstDiffPairs (a b : List (Value × Value)) : Option Nat :=
  firstDiffPairsAux a b 0

/-- A string-keyed operation record (`diff.$set`, `diff.$unset`, ...),
insertion ordered. -/
abbrev OpMap (α : Type) := List (String × α)

/-- JavaScript property assignment `m[k] = v`: overwrite in place or append. -/
def opInsert {α : Type} (m : OpMap α) (k : String) (v : α) : OpMap α :=
  if m.any (fun kv => kv.1 == k) then
    m.map (fun kv => if kv.1 == k then (k, v) else kv)
  else m ++ [(k, v)]

/-- `Object.assign(t, s)`: assign every entry of `s` into `t` in order. -/
def opAssign {α : Type} (t s : OpMap α) : OpMap α :=
  s.foldl (fun acc kv => opInsert acc kv.1 kv.2) t

/-- The keys (field paths) of an operation record. -/
def opKeys {α : Type} (m : OpMap α) : List String :=
  m.map Prod.fst

/-- `delete value._id` on an operation record. -/
def opEraseId {α : Type} (m : OpMap α) : OpMap α :=
  m.filter (fun kv => kv.1 != "_id")

/-- Payload of a `$push` operation: `{$each, $position, $slice}`. -/
structure PushPayload where
  each : List Value
  position : Nat
  slice : Nat

/-- The operator records of an `UpdateFilter` that `changes` can populate
(`$set`, `$unset`, `$push`; every other operator field of the class is never
written by `changes` and is dropped by `parse` as empty). -/
structure UpdateFilter where
  set : OpMap Value
  unset : OpMap String
  push : OpMap PushPayload

/-- A fresh `new UpdateFilter()`. -/
def emptyUF : UpdateFilter := ⟨[], [], []⟩

/-- The rendered form returned by the `parse` getter: operator records that
are non-empty survive (each with its `_id` entry deleted), empty ones are
filtered out. -/
structure ParsedUF where
  set : Option (OpMap Value)
  unset : Option (OpMap String)
  push : Option (OpMap PushPayload)

/-- The `parse` getter of `UpdateFilter`: keep non-empty operator records,
then delete `_id` from each survivor. -/
def UpdateFilter.parse (d : UpdateFilter) : ParsedUF :=
  ⟨if d.set.isEmpty then none else some (opEraseId d.set),
   if d.unset.isEmpty then none else some (opEraseId d.unset),
   if d.push.isEmpty then none else some (opEraseId d.push)⟩

/-- `Object.keys(diff).length === 0` on a rendered filter. -/
def ParsedUF.isEmpty (p : ParsedUF) : Bool :=
  p.set.isNone && p.unset.isNone && p.push.isNone

/-- The recursion step of `changes` merges the child's `parse` into the
accumulator with `Object.assign` per operator; an empty child record
contributes nothing and a non-empty one arrives with `_id` deleted, which is
exactly `opAssign` with `opEraseId` (erasure of an empty record is empty). -/
def mergeSub (d sub : UpdateFilter) : UpdateFilter :=
  ⟨opAssign d.set (opEraseId sub.set),
   opAssign d.unset (opEraseId sub.unset),
   opAssign d.push (opEraseId sub.push)⟩

/-- The `$unset` entries for keys present in `a` but absent from `b`. -/
def unsetRemoved (pfx : String) (a : Value) (bfs : List (String × Value)) :
    OpMap String :=
  ((jsEntries a).map Prod.fst).foldl
    (fun m k =>
      if (bfs.map Prod.fst).contains k then m else opInsert m (pathStr pfx k) "")
    []

/-- The tail of the wire-compatible branch for a non-collection `b`: the
deep-equality guard, the root assertion, and the full `$set`. -/
def changesPrim (pfx : String) (a b : Value) : Option UpdateFilter :=
  if beqV a b then some emptyUF
  else if pfx = "" then none
  else
    match encode b with
    | some e => some { emptyUF with set := [(pfx, e)] }
    | none => none

/-- The Set arm of the differencer: elementwise common prefix, then a
positional push of the encoded tail under the `_JSSet` path, sliced to the
new size; a non-Set `a` or an undetected difference falls back to a full
`$set`. -/
def changesSet (pfx : String) (a : Value) (bl : List Value) :
    Option UpdateFilter :=
  if beqV a (.set bl) then some emptyUF
  else if pfx = "" then none
  else
    match a with
    | .set al =>
      match firstDiffList al bl with
      | some i =>
        match encodeList (bl.drop i) with
        | some each =>
          some { emptyUF with
                  push := [(pfx ++ "._JSSet", ⟨each, i, bl.length⟩)] }
        | none => none
      | none =>
        match encode (.set bl) with
        | some e => some { emptyUF with set := [(pfx, e)] }
        | none => none
    | _ =>
      match encode (.set bl) with
      | some e => some { emptyUF with set := [(pfx, e)] }
      | none => none

/-- The Map arm of the differencer, symmetric to the Set arm under the
`_JSMap` path. -/
def changesMap (pfx : String) (a : Value) (bl : List (Value × Value)) :
    Option UpdateFilter :=
  if beqV a (.map bl) then some emptyUF
  else if pfx = "" then none
  else
    match a with
    | .map al =>
      match firstDiffPairs al bl with
      | some i =>
        match encodePairs (bl.drop i) with
        | some each =>
          some { emptyUF with
                  push := [(pfx ++ "._JSMap", ⟨each, i, bl.length⟩)] }
        | none => none
      | none =>
        match encode (.map bl) with
        | some e => some { emptyUF with set := [(pfx, e)] }
        | none => none
    | _ =>
      match encode (.map bl) with
      | some e => some { emptyUF with set := [(pfx, e)] }
      | none => none

/-- The plain-array arm of the differencer: positional push at the current
path, or a full `$set` of the elementwise-encoded array. -/
def changesArr (pfx : String) (a : Value) (bl : List Value) :
    Option UpdateFilter :=
  if beqV a (.arr bl) then some emptyUF
  else if pfx = "" then none
  else
    match a with
    | .arr al =>
      match firstDiffList al bl with
      | some i =>
        match encodeList (bl.drop i) with
        | some each => some { emptyUF with push := [(pfx, ⟨each, i, bl.length⟩)] }
        | none => none
      | none =>
        match encode (.arr bl) with
        | some e => some { emptyUF with set := [(pfx, e)] }
        | none => none
    | _ =>
      match encodeList bl with
      | some es => some { emptyUF with set := [(pfx, .arr es)] }
      | none => none

mutual

/-- The differencer `changes(prefix, a, b)` from utils, computing the
`UpdateFilter` needed to rewrite stored `a` into `b`.  Thrown assertions
(`prefix` empty at a difference, non-record sides, encoding `undefined`)
are `none`. -/
def changes (pfx : String) (a b : Value) : Option UpdateFilter :=
  match b with
  | .jsUndefined =>
    if pfx = "" then none
    else some { emptyUF with unset := [(pfx, "")] }
  | .str s => changesPrim pfx a (.str s)
  | .num n => changesPrim pfx a (.num n)
  | .bool c => changesPrim pfx a (.bool c)
  | .null => changesPrim pfx a .null
  | .oid n => changesPrim pfx a (.oid n)
  | .date n => changesPrim pfx a (.date n)
  | .set bl => changesSet pfx a bl
  | .map bl => changesMap pfx a bl
  | .arr bl => changesArr pfx a bl
  | .obj bfs =>
    if EJSONCompatible a then changesPrim pfx a (.obj bfs)
    else changesObjRest pfx a bfs
termination_by (sizeOf b, 2)

/-- The record tail of the differencer for an object `b` and a non-wire
`a`: a `typeof` mismatch emits a full `$set`, a non-record `a` fails the
assertion, and otherwise the removed keys are unset and the fields fold. -/
def changesObjRest (pfx : String) (a : Value) (bfs : List (String × Value)) :
    Option UpdateFilter :=
  match a with
  | .jsUndefined =>
    if pfx = "" then none
    else
      match encode (.obj bfs) with
      | some e => some { emptyUF with set := [(pfx, e)] }
      | none => none
  | .arr _ => none
  | _ => changesFields pfx a bfs { emptyUF with unset := unsetRemoved pfx a bfs }
termination_by (sizeOf bfs, 1)

/-- The recursion loop of `changes` over the entries of `b`, merging each
child's rendered filter into the accumulator. -/
def changesFields (pfx : String) (a : Value) :
    List (String × Value) → UpdateFilter → Option UpdateFilter
  | [], d => some d
  | (k, v) :: rest, d =>
    match changes (pathStr pfx k) (jsGet a k) v with
    | some sub => changesFields pfx a rest (mergeSub d sub)
    | none => none
termination_by fields _ => (sizeOf fields, 0)
decreasing_by
  all_goals simp_wf
  all_goals omega

end

/-! ## The predicate-aware lazy cursor -/

/-- The `search` argument of `FindCursor`: an exact-match filter document
pushed to the store, or a client-side predicate over decoded models. -/
inductive Search where
  | filter (q : Value)
  | pred (p : Value → Bool)

/-- The `FindOptions` bag handed to the constructor. -/
structure FindOptions where
  limit : Option Nat
  skip : Option Nat
  sort : Option (List (String × Int))
  hint : Option String
  populate : Option (List String)

/-- An options object with every field absent. -/
def defaultOptions : FindOptions := ⟨none, none, none, none, none⟩

/-- The constructor's `delete options.limit; delete options.skip;
delete options.populate` applied to the object stored as `this.options`. -/
def scrubOptions (o : FindOptions) : FindOptions :=
  { o with limit := none, skip := none, populate := none }

/-- Store-side exact matching of a find query: every top-level field of the
query document deep-equals the corresponding field of the stored one. -/
def matchesQuery (q doc : Value) : Bool :=
  (jsEntries q).all (fun kv => beqV (jsGet doc kv.1) kv.2)

/-- The state of a `FindCursor`: the immutable collection snapshot and query
parameters, the scrubbed `this.options`, the `_limit` (`none` = Infinity),
`_skip` and `_populate` captured before the deletions, the mutable
`skipped`/`yielded` counters, and the remaining store stream. -/
structure FindCursor where
  store : List Value
  search : Option Search
  options : Option FindOptions
  transform : Option (Value → Value)
  limit : Option Nat
  skip : Nat
  populateKeys : List String
  skipped : Nat
  yielded : Nat
  stream : List Value
  closed : Bool

/-- The `FindCursor` constructor over a store snapshot: computes the encoded
query (`{}` in predicate mode), captures `_limit`/`_skip`/`_populate`, scrubs
and stores the options object, and opens the store stream.  `none` models a
throwing `encode` of the filter. -/
def mkFindCursor (store : List Value) (search : Option Search)
    (options : Option FindOptions) (transform : Option (Value → Value)) :
    Option FindCursor :=
  match (match search with
         | some (.filter q) => encode q
         | _ => some (.obj [])) with
  | none => none
  | some query =>
    some
      { store := store
        search := search
        options := options.map scrubOptions
        transform := transform
        limit := options.bind (fun o => o.limit)
        skip := (options.bind (fun o => o.skip)).getD 0
        populateKeys := (options.bind (fun o => o.populate)).getD []
        skipped := 0
        yielded := 0
        stream := store.filter (matchesQuery query)
        closed := false }

/-- `close()`: release the store stream. -/
def closeCursor (c : FindCursor) : FindCursor :=
  { c with closed := true }

/-- `clone()`: re-issue the constructor with `this.search`, `this.options`
(as scrubbed at construction) and `this.transform`. -/
def cloneCursor (c : FindCursor) : Option FindCursor :=
  mkFindCursor c.store c.search c.options c.transform

/-- The `skip(n)` modifier: a new cursor over `{...this.options, skip: n}`. -/
def skipCursor (c : FindCursor) (n : Nat) : Option FindCursor :=
  mkFindCursor c.store c.search
    (some { (c.options.getD defaultOptions) with skip := some n }) c.transform

/-- The `limit(n)` modifier: a new cursor over `{...this.options, limit: n}`. -/
def limitCursor (c : FindCursor) (n : Nat) : Option FindCursor :=
  mkFindCursor c.store c.search
    (some { (c.options.getD defaultOptions) with limit := some n }) c.transform

/-- Outcome of one `next()` call: a yielded value, exhaustion
(`{done: true}`), or a thrown error. -/
inductive NextRes where
  | yield (v : Value)
  | done
  | error

/-- Whether `this.yielded >= this._limit`. -/
def limitReached (c : FindCursor) : Bool :=
  match c.limit with
  | some l => decide (l ≤ c.yielded)
  | none => false

/-- The body of the `while (next !== null)` loop of `next()`, holding the
current raw document `cur`.  The skip branch `continue`s with the same raw
document (it does not pull the next one), and only a predicate mismatch
pulls a fresh document from the stream.  An iteration either returns,
consumes one stream element, or raises `skipped` toward `skip`, so the
iteration budget passed by `nextLoop` is never exhausted. -/
def nextLoopF : Nat → FindCursor → Value → NextRes × FindCursor
  | 0, c, _ => (.error, c)
  | fuel + 1, c, cur =>
    if limitReached c then (.done, closeCursor c)
    else
      match decode cur with
      | none => (.error, c)
      | some value =>
        match c.search with
        | some (.pred p) =>
          if p value then
            let tv := match c.transform with | none => value | some f => f value
            match tv with
            | .null => (.done, c)
            | _ =>
              if c.skipped < c.skip then
                nextLoopF fuel { c with skipped := c.skipped + 1 } cur
              else (.yield tv, { c with yielded := c.yielded + 1 })
          else
            match c.stream with
            | [] => (.done, closeCursor c)
            | d :: rest => nextLoopF fuel { c with stream := rest } d
        | _ =>
          let tv := match c.transform with | none => value | some f => f value
          match tv with
          | .null => (.done, c)
          | _ =>
            if c.skipped < c.skip then
              nextLoopF fuel { c with skipped := c.skipped + 1 } cur
            else (.yield tv, { c with yielded := c.yielded + 1 })

/-- The `while (next !== null)` loop with its sufficient iteration budget. -/
def nextLoop (c : FindCursor) (cur : Value) : NextRes × FindCursor :=
  nextLoopF (c.stream.length + c.skip + 1) c cur

/-- `next()`: pull a raw document and run the loop; an empty stream closes
the cursor and reports exhaustion. -/
def cursorNext (c : FindCursor) : NextRes × FindCursor :=
  match c.stream with
  | [] => (.done, closeCursor c)
  | doc :: rest => nextLoop { c with stream := rest } doc

/-- Repeated `next()` calls under a fuel bound, collecting yielded values. -/
def drainFuel : Nat → FindCursor → List Value
  | 0, _ => []
  | n + 1, c =>
    match cursorNext c with
    | (.yield v, c2) => v :: drainFuel n c2
    | _ => []

/-- One pass of the `for await` loop body of `[Symbol.asyncIterator]`: the
pre-checks `if (this._skip > this.skipped) continue` and
`if (this.yielded >= this._limit) break` run before each `next()` call. -/
def iterFuel : Nat → FindCursor → List Value
  | 0, _ => []
  | n + 1, c =>
    if c.skipped < c.skip then iterFuel n c
    else if limitReached c then []
    else
      match cursorNext c with
      | (.yield v, c2) => v :: iterFuel n c2
      | _ => []

/-- `hasNext()`: probe an independent `clone().skip(this.yielded)` and
report whether its first `next()` yields; the original state is untouched.
`none` models a throwing probe. -/
def cursorHasNext (c : FindCursor) : Option Bool × FindCursor :=
  (match (cloneCursor c).bind (fun cl => skipCursor cl c.yielded) with
   | none => none
   | some probe =>
     match (cursorNext probe).1 with
     | .yield _ => some true
     | .done => some false
     | .error => none,
   c)

/-! ## The updateOne collection operation -/

/-- A structured result value returned by a collection operation: either an
acknowledged model or a field-keyed error record. -/
inductive JsResult where
  | ok (doc : Value)
  | err (errors : List (String × String))

/-- Whether two structured results are the same value. -/
def JsResult.beq : JsResult → JsResult → Bool
  | .ok a, .ok b => beqV a b
  | .err a, .err b => a == b
  | _, _ => false

/-- The observable effect of one `updateOne` call: whether
`findOneAndUpdate` was invoked, and the structured result returned. -/
structure UpdateCall where
  wrote : Bool
  result : JsResult

/-- `updateOne` from the collection layer, parameterized by its external
collaborators: the `findOne` outcome, the schema validator (`none` =
success), the update application building `after`, and the store's
`findOneAndUpdate` (`none` = no document returned).  The overall `none`
models a thrown assertion inside `changes`. -/
def updateOne (name : String) (findResult : Option Value)
    (validate : Value → Option (List (String × String)))
    (applyUpdate : Value → Value)
    (storeUpdate : ParsedUF → Option Value) : Option UpdateCall :=
  match findResult with
  | none => some ⟨false, .err [("general", "No " ++ name ++ " found")]⟩
  | some before =>
    let after := applyUpdate before
    match validate after with
    | some errs => some ⟨false, .err errs⟩
    | none =>
      match changes "" before after with
      | none => none
      | some diff =>
        let rendered := diff.parse
        if rendered.isEmpty then
          some ⟨false, .err [("general", "No Updates to Make")]⟩
        else
          match storeUpdate rendered with
          | none => some ⟨true, .err [("general", "Rejected By Collection")]⟩
          | some updated => some ⟨true, .ok updated⟩

/-! ## Well-formedness predicates on values -/

mutual

/-- No `undefined` occurs anywhere inside the value. -/
def undefFree : Value → Bool
  | .jsUndefined => false
  | .arr l => undefFreeList l
  | .set l => undefFreeList l
  | .map l => undefFreePairs l
  | .obj fs => undefFreeFields fs
  | _ => true

/-- No `undefined` in a list of values. -/
def undefFreeList : List Value → Bool
  | [] => true
  | v :: vs => undefFree v && undefFreeList vs

/-- No `undefined` in an entry list. -/
def undefFreePairs : List (Value × Value) → Bool
  | [] => true
  | (k, v) :: ps => undefFree k && undefFree v && undefFreePairs ps

/-- No `undefined` in a field list. -/
def undefFreeFields : List (String × Value) → Bool
  | [] => true
  | (_, v) :: fs => undefFree v && undefFreeFields fs

end

mutual

/-- No object key anywhere inside the value collides with a reserved wire
tag key (`_JSSet` / `_JSMap`). -/
def noTagKeys : Value → Bool
  | .arr l => noTagKeysList l
  | .set l => noTagKeysList l
  | .map l => noTagKeysPairs l
  | .obj fs => noTagKeysFields fs
  | _ => true

/-- No reserved tag key in a list of values. -/
def noTagKeysList : List Value → Bool
  | [] => true
  | v :: vs => noTagKeys v && noTagKeysList vs

/-- No reserved tag key in an entry list. -/
def noTagKeysPairs : List (Value × Value) → Bool
  | [] => true
  | (k, v) :: ps => noTagKeys k && noTagKeys v && noTagKeysPairs ps

/-- No reserved tag key among object fields. -/
def noTagKeysFields : List (String × Value) → Bool
  | [] => true
  | (k, v) :: fs => (k != "_JSSet") && (k != "_JSMap") && noTagKeys v && noTagKeysFields fs

end

mutual

/-- Every object inside the value has duplicate-free keys, the invariant of
any value reachable as an actual JavaScript object tree. -/
def nodupKeys : Value → Bool
  | .arr l => nodupKeysList l
  | .set l => nodupKeysList l
  | .map l => nodupKeysPairs l
  | .obj fs => keysDistinct (fs.map Prod.fst) && nodupKeysFields fs
  | _ => true

/-- Duplicate-free object keys inside a list of values. -/
def nodupKeysList : List Value → Bool
  | [] => true
  | v :: vs => nodupKeys v && nodupKeysList vs

/-- Duplicate-free object keys inside an entry list. -/
def nodupKeysPairs : List (Value × Value) → Bool
  | [] => true
  | (k, v) :: ps => nodupKeys k && nodupKeys v && nodupKeysPairs ps

/-- Duplicate-free object keys inside a field list. -/
def nodupKeysFields : List (String × Value) → Bool
  | [] => true
  | (_, v) :: fs => nodupKeys v && nodupKeysFields fs

/-- A duplicate-free key list. -/
def keysDistinct : List String → Bool
  | [] => true
  | k :: ks => !ks.contains k && keysDistinct ks

end

mutual

/-- Every object key inside the value is a valid Mongo path segment:
non-empty and containing no `.` delimiter. -/
def segKeys : Value → Bool
  | .arr l => segKeysList l
  | .set l => segKeysList l
  | .map l => segKeysPairs l
  | .obj fs => segKeysFields fs
  | _ => true

/-- Valid path-segment keys inside a list of values. -/
def segKeysList : List Value → Bool
  | [] => true
  | v :: vs => segKeys v && segKeysList vs

/-- Valid path-segment keys inside an entry list. -/
def segKeysPairs : List (Value × Value) → Bool
  | [] => true
  | (k, v) :: ps => segKeys k && segKeys v && segKeysPairs ps

/-- Valid path-segment keys inside a field list. -/
def segKeysFields : List (String × Value) → Bool
  | [] => true
  | (k, v) :: fs => (k != "") && !(k.data.contains '.') && segKeys v && segKeysFields fs

end

/-! ## Basic lemmas -/

mutual

/-- Deep equality is reflexive. -/
theorem beqV_refl : ∀ v : Value, beqV v v = true
  | .str _ => by simp [beqV]
  | .num _ => by simp [beqV]
  | .bool _ => by simp [beqV]
  | .null => by simp [beqV]
  | .jsUndefined => by simp [beqV]
  | .oid _ => by simp [beqV]
  | .date _ => by simp [beqV]
  | .arr l => by simpa [beqV] using beqListV_refl l
  | .set l => by simpa [beqV] using beqListV_refl l
  | .map l => by simpa [beqV] using beqPairsV_refl l
  | .obj l => by simpa [beqV] using beqFieldsV_refl l

/-- Reflexivity on lists. -/
theorem beqListV_refl : ∀ l : List Value, beqListV l l = true
  | [] => by simp [beqListV]
  | v :: vs => by simp [beqListV, beqV_refl v, beqListV_refl vs]

/-- Reflexivity on entry lists. -/
theorem beqPairsV_refl : ∀ l : List (Value × Value), beqPairsV l l = true
  | [] => by simp [beqPairsV]
  | (k, v) :: ps => by simp [beqPairsV, beqV_refl k, beqV_refl v, beqPairsV_refl ps]

/-- Reflexivity on field lists. -/
theorem beqFieldsV_refl : ∀ l : List (String × Value), beqFieldsV l l = true
  | [] => by simp [beqFieldsV]
  | (k, v) :: fs => by simp [beqFieldsV, beqV_refl v, beqFieldsV_refl fs]

end

/-- On an object with duplicate-free keys, a property read returns the value
of the unique matching field. -/
theorem jsGet_obj_of_nodup {fs : List (String × Value)} {k : String} {v : Value}
    (hnd : keysDistinct (fs.map Prod.fst) = true) (hmem : (k, v) ∈ fs) :
    jsGet (.obj fs) k = v := by
  induction fs with
  | nil => cases hmem
  | cons head rest ih =>
    obtain ⟨k1, v1⟩ := head
    obtain ⟨hnc, htail⟩ : (∀ x : Value, (k1, x) ∉ rest)
        ∧ keysDistinct (rest.map Prod.fst) = true := by
      simpa [keysDistinct] using hnd
    rcases List.mem_cons.mp hmem with heq | hrest
    · cases heq
      simp [jsGet, List.find?]
    · have hk1 : k1 ≠ k := by
        rintro rfl
        exact hnc v hrest
      have ihres := ih htail hrest
      simp only [jsGet] at ihres ⊢
      rw [List.find?_cons_of_neg]
      · exact ihres
      · simp [hk1]

/-! ## Round-trip of the transcoder -/

/-- Case lemma: arrays round-trip elementwise. -/
theorem rtStepArr {l es : List Value} (he : encodeList l = some es)
    (hd : decodeList es = some l) :
    encode (.arr l) = some (.arr es) ∧ decode (.arr es) = some (.arr l) := by
  constructor <;> simp [encode, decode, he, hd]

/-- Case lemma: Sets round-trip through the `_JSSet` tag. -/
theorem rtStepSet {l es : List Value} (he : encodeList l = some es)
    (hd : decodeList es = some l) :
    encode (.set l) = some (.obj [("_JSSet", .arr es)])
      ∧ decode (.obj [("_JSSet", .arr es)]) = some (.set l) := by
  constructor <;> simp [encode, decode, decodeEntries, he, hd]

/-- Case lemma: Maps round-trip through the `_JSMap` tag. -/
theorem rtStepMap {l : List (Value × Value)} {es : List Value}
    (he : encodePairs l = some es) (hd : decodeMapPairs es = some l) :
    encode (.map l) = some (.obj [("_JSMap", .arr es)])
      ∧ decode (.obj [("_JSMap", .arr es)]) = some (.map l) := by
  constructor <;> simp [encode, decode, decodeEntries, he, hd]

/-- Case lemma: plain objects round-trip fieldwise. -/
theorem rtStepObj {fs es : List (String × Value)} (he : encodeFields fs = some es)
    (hd : decodeEntries es = some (.obj fs)) :
    encode (.obj fs) = some (.obj es) ∧ decode (.obj es) = some (.obj fs) := by
  constructor <;> simp [encode, decode, he, hd]

/-- Case lemma: element lists round-trip headwise. -/
theorem rtStepListCons {v w : Value} {vs es : List Value}
    (hew : encode v = some w) (hdw : decode w = some v)
    (he : encodeList vs = some es) (hd : decodeList es = some vs) :
    encodeList (v :: vs) = some (w :: es)
      ∧ decodeList (w :: es) = some (v :: vs) := by
  constructor <;> simp [encodeList, decodeList, hew, hdw, he, hd]

/-- Case lemma: Map entry lists round-trip headwise, the decoded `[k, v]`
array feeding the entry constructor. -/
theorem rtStepPairsCons {k v wk wv : Value} {ps : List (Value × Value)}
    {es : List Value}
    (hek : encode k = some wk) (hdk : decode wk = some k)
    (hev : encode v = some wv) (hdv : decode wv = some v)
    (he : encodePairs ps = some es) (hd : decodeMapPairs es = some ps) :
    encodePairs ((k, v) :: ps) = some (.arr [wk, wv] :: es)
      ∧ decodeMapPairs (.arr [wk, wv] :: es) = some ((k, v) :: ps) := by
  constructor <;>
    simp [encodePairs, decodeMapPairs, decode, decodeList, hek, hdk, hev, hdv, he, hd]

/-- Case lemma: object field lists round-trip headwise when the key is not a
reserved tag. -/
theorem rtStepFieldsCons {k : String} {v w : Value} {fs es : List (String × Value)}
    (hk1 : ¬k = "_JSSet") (hk2 : ¬k = "_JSMap")
    (hew : encode v = some w) (hdw : decode w = some v)
    (he : encodeFields fs = some es) (hd : decodeEntries es = some (.obj fs)) :
    encodeFields ((k, v) :: fs) = some ((k, w) :: es)
      ∧ decodeEntries ((k, w) :: es) = some (.obj ((k, v) :: fs)) := by
  constructor
  · rw [encodeFields.eq_def]
    simp [hew, he]
  · rw [decodeEntries.eq_def]
    simp [hk1, hk2, hdw, hd]

mutual

/-- Encoding succeeds and decoding returns the original value, for values
free of `undefined` and of reserved tag-key collisions. -/
theorem roundtripV : ∀ v : Value, undefFree v = true → noTagKeys v = true →
    ∃ w, encode v = some w ∧ decode w = some v
  | .str s, _, _ => ⟨.str s, rfl, rfl⟩
  | .num n, _, _ => ⟨.num n, rfl, rfl⟩
  | .bool b, _, _ => ⟨.bool b, rfl, rfl⟩
  | .null, _, _ => ⟨.null, rfl, rfl⟩
  | .jsUndefined, h1, _ => by simp [undefFree] at h1
  | .oid n, _, _ => ⟨.oid n, rfl, rfl⟩
  | .date n, _, _ => ⟨.date n, rfl, rfl⟩
  | .arr l, h1, h2 => by
    obtain ⟨es, he, hd⟩ := roundtripList l (by simpa [undefFree] using h1)
      (by simpa [noTagKeys] using h2)
    exact ⟨.arr es, rtStepArr he hd⟩
  | .set l, h1, h2 => by
    obtain ⟨es, he, hd⟩ := roundtripList l (by simpa [undefFree] using h1)
      (by simpa [noTagKeys] using h2)
    exact ⟨.obj [("_JSSet", .arr es)], rtStepSet he hd⟩
  | .map l, h1, h2 => by
    obtain ⟨es, he, hd⟩ := roundtripPairs l (by simpa [undefFree] using h1)
      (by simpa [noTagKeys] using h2)
    exact ⟨.obj [("_JSMap", .arr es)], rtStepMap he hd⟩
  | .obj fs, h1, h2 => by
    obtain ⟨es, he, hd⟩ := roundtripFields fs (by simpa [undefFree] using h1)
      (by simpa [noTagKeys] using h2)
    exact ⟨.obj es, rtStepObj he hd⟩
termination_by v _ _ => sizeOf v

/-- Round-trip on element lists. -/
theorem roundtripList : ∀ l : List Value, undefFreeList l = true →
    noTagKeysList l = true → ∃ es, encodeList l = some es ∧ decodeList es = some l
  | [], _, _ => ⟨[], rfl, rfl⟩
  | v :: vs, h1, h2 => by
    obtain ⟨hv, hvs⟩ : undefFree v = true ∧ undefFreeList vs = true := by
      simpa [undefFreeList] using h1
    obtain ⟨tv, tvs⟩ : noTagKeys v = true ∧ noTagKeysList vs = true := by
      simpa [noTagKeysList] using h2
    obtain ⟨w, hew, hdw⟩ := roundtripV v hv tv
    obtain ⟨es, he, hd⟩ := roundtripList vs hvs tvs
    exact ⟨w :: es, rtStepListCons hew hdw he hd⟩
termination_by l _ _ => sizeOf l

/-- Round-trip on Map entry lists. -/
theorem roundtripPairs : ∀ l : List (Value × Value), undefFreePairs l = true →
    noTagKeysPairs l = true →
    ∃ es, encodePairs l = some es ∧ decodeMapPairs es = some l
  | [], _, _ => ⟨[], rfl, rfl⟩
  | (k, v) :: ps, h1, h2 => by
    obtain ⟨⟨hk, hv⟩, hps⟩ : (undefFree k = true ∧ undefFree v = true)
        ∧ undefFreePairs ps = true := by simpa [undefFreePairs] using h1
    obtain ⟨⟨tk, tv⟩, tps⟩ : (noTagKeys k = true ∧ noTagKeys v = true)
        ∧ noTagKeysPairs ps = true := by simpa [noTagKeysPairs] using h2
    obtain ⟨wk, hek, hdk⟩ := roundtripV k hk tk
    obtain ⟨wv, hev, hdv⟩ := roundtripV v hv tv
    obtain ⟨es, he, hd⟩ := roundtripPairs ps hps tps
    exact ⟨.arr [wk, wv] :: es, rtStepPairsCons hek hdk hev hdv he hd⟩
termination_by l _ _ => sizeOf l

/-- Round-trip on object field lists. -/
theorem roundtripFields : ∀ fs : List (String × Value), undefFreeFields fs = true →
    noTagKeysFields fs = true →
    ∃ es, encodeFields fs = some es ∧ decodeEntries es = some (.obj fs)
  | [], _, _ => ⟨[], rfl, rfl⟩
  | (k, v) :: fs, h1, h2 => by
    obtain ⟨hv, hfs⟩ : undefFree v = true ∧ undefFreeFields fs = true := by
      simpa [undefFreeFields] using h1
    obtain ⟨⟨⟨tk1, tk2⟩, tv⟩, tfs⟩ : ((¬k = "_JSSet" ∧ ¬k = "_JSMap")
        ∧ noTagKeys v = true) ∧ noTagKeysFields fs = true := by
      simpa [noTagKeysFields] using h2
    obtain ⟨w, hew, hdw⟩ := roundtripV v hv tv
    obtain ⟨es, he, hd⟩ := roundtripFields fs hfs tfs
    exact ⟨(k, w) :: es, rtStepFieldsCons tk1 tk2 hew hdw he hd⟩
termination_by fs _ _ => sizeOf fs

end

/-! ## Path structure of the differencer output -/

/-- All field paths of an update filter, across the three operator records. -/
def pathsOfUF (d : UpdateFilter) : List String :=
  opKeys d.set ++ opKeys d.unset ++ opKeys d.push

/-- Key-disjointness of two path lists. -/
def DisjPaths (l1 l2 : List String) : Prop := ∀ q ∈ l1, q ∉ l2

/-- No field path occurs under two different operator kinds. -/
def NoOverlapUF (d : UpdateFilter) : Prop :=
  DisjPaths (opKeys d.set) (opKeys d.unset)
  ∧ DisjPaths (opKeys d.set) (opKeys d.push)
  ∧ DisjPaths (opKeys d.unset) (opKeys d.push)

/-- No field path occurs under two operator kinds of a rendered filter. -/
def NoOverlapParsed (p : ParsedUF) : Prop :=
  DisjPaths (opKeys (p.set.getD [])) (opKeys (p.unset.getD []))
  ∧ DisjPaths (opKeys (p.set.getD [])) (opKeys (p.push.getD []))
  ∧ DisjPaths (opKeys (p.unset.getD [])) (opKeys (p.push.getD []))

/-- `q` is `base` itself or `base` extended by a `.`-led suffix. -/
def SegExt (base q : String) : Prop :=
  ∃ t, q.data = base.data ++ t ∧ (t = [] ∨ t.head? = some '.')

/-- Every path is an extension of itself. -/
theorem segExt_refl (b : String) : SegExt b b := ⟨[], by simp, Or.inl rfl⟩

/-- Appending a dot-led literal yields an extension. -/
theorem segExt_append (b s : String) (h : s.data.head? = some '.') :
    SegExt b (b ++ s) := ⟨s.data, rfl, Or.inr h⟩

/-- A dotted path under a key extends the base path. -/
theorem segExt_pathStr (pfx k : String) (h : pfx ≠ "") :
    SegExt pfx (pathStr pfx k) := by
  refine ⟨'.' :: k.data, ?_, Or.inr rfl⟩
  simp [pathStr, h]

/-- Extensions of a dotted child path extend the base path. -/
theorem segExt_trans_pathStr {pfx k q : String} (h : pfx ≠ "")
    (he : SegExt (pathStr pfx k) q) : SegExt pfx q := by
  obtain ⟨t, ht, _⟩ := he
  refine ⟨'.' :: (k.data ++ t), ?_, Or.inr rfl⟩
  rw [ht]
  simp [pathStr, h]

/-- Two dot-free segments followed by empty-or-dot-led tails agree whenever
their concatenations agree. -/
theorem segSplit : ∀ (k1 k2 t1 t2 : List Char), '.' ∉ k1 → '.' ∉ k2 →
    (t1 = [] ∨ t1.head? = some '.') → (t2 = [] ∨ t2.head? = some '.') →
    k1 ++ t1 = k2 ++ t2 → k1 = k2
  | [], [], _, _, _, _, _, _, _ => rfl
  | [], c2 :: k2, t1, t2, _, h2, d1, _, h => by
    exfalso
    have ht : t1 = c2 :: (k2 ++ t2) := by simpa using h
    rcases d1 with rfl | hd
    · simp at ht
    · rw [ht] at hd
      have hc : c2 = '.' := by simpa using hd
      exact h2 (by simp [hc])
  | c1 :: k1, [], t1, t2, h1, _, _, d2, h => by
    exfalso
    have ht : t2 = c1 :: (k1 ++ t1) := by simpa using h.symm
    rcases d2 with rfl | hd
    · simp at ht
    · rw [ht] at hd
      have hc : c1 = '.' := by simpa using hd
      exact h1 (by simp [hc])
  | c1 :: k1, c2 :: k2, t1, t2, h1, h2, d1, d2, h => by
    obtain ⟨rfl, h'⟩ : c1 = c2 ∧ k1 ++ t1 = k2 ++ t2 := by
      constructor
      · have := congrArg List.head? h
        simpa using this
      · have := congrArg List.tail h
        simpa using this
    have := segSplit k1 k2 t1 t2 (fun hm => h1 (List.mem_cons_of_mem _ hm))
      (fun hm => h2 (List.mem_cons_of_mem _ hm)) d1 d2 h'
    rw [this]

/-- A valid Mongo path segment: non-empty and dot-free. -/
def SegValid (k : String) : Prop := k ≠ "" ∧ '.' ∉ k.data

/-- Extensions of sibling child paths with distinct valid keys are distinct. -/
theorem pathSep {pfx k1 k2 q1 q2 : String} (hne : k1 ≠ k2)
    (hv1 : SegValid k1) (hv2 : SegValid k2)
    (s1 : SegExt (pathStr pfx k1) q1) (s2 : SegExt (pathStr pfx k2) q2) :
    q1 ≠ q2 := by
  rintro rfl
  obtain ⟨t1, ht1, d1⟩ := s1
  obtain ⟨t2, ht2, d2⟩ := s2
  apply hne
  by_cases hp : pfx = ""
  · subst hp
    simp only [pathStr, if_pos rfl] at ht1 ht2
    have h := ht1.symm.trans ht2
    exact String.ext (segSplit k1.data k2.data t1 t2 hv1.2 hv2.2 d1 d2 h)
  · simp only [pathStr, if_neg hp] at ht1 ht2
    have e1 : (pfx ++ "." ++ k1).data = pfx.data ++ '.' :: k1.data := by
      show pfx.data ++ ".".data ++ k1.data = _
      simp
    have e2 : (pfx ++ "." ++ k2).data = pfx.data ++ '.' :: k2.data := by
      show pfx.data ++ ".".data ++ k2.data = _
      simp
    rw [e1] at ht1
    rw [e2] at ht2
    have h := ht1.symm.trans ht2
    simp only [List.append_assoc] at h
    have h2 := List.append_cancel_left h
    have h3 : k1.data ++ t1 = k2.data ++ t2 := by
      have := congrArg List.tail h2
      simpa using this
    exact String.ext (segSplit k1.data k2.data t1 t2 hv1.2 hv2.2 d1 d2 h3)

/-- A dotted child path is itself non-empty. -/
theorem pathStr_ne_empty {pfx k : String} (hk : k ≠ "") : pathStr pfx k ≠ "" := by
  unfold pathStr
  split
  · exact hk
  · intro h
    have := congrArg String.data h
    rename_i hp
    have e1 : (pfx ++ "." ++ k).data = pfx.data ++ '.' :: k.data := by
      show pfx.data ++ ".".data ++ k.data = _
      simp
    rw [e1] at this
    simp at this

/-! ## Operator-record lemmas -/

/-- Keys after a property assignment: the old keys plus the new one. -/
theorem opKeys_insert_sub {α : Type} {m : OpMap α} {k : String} {v : α}
    {q : String} (h : q ∈ opKeys (opInsert m k v)) : q ∈ opKeys m ∨ q = k := by
  unfold opInsert at h
  split at h
  · simp only [opKeys, List.map_map, List.mem_map] at h
    obtain ⟨kv, hkv, hq⟩ := h
    by_cases he : kv.1 == k
    · right
      simp only [Function.comp, he, if_pos] at hq
      simp [← hq]
    · left
      simp only [Function.comp] at hq
      rw [if_neg he] at hq
      exact List.mem_map.mpr ⟨kv, hkv, hq⟩
  · simp only [opKeys, List.map_append, List.mem_append] at h
    rcases h with h | h
    · exact Or.inl h
    · right
      simp at h
      exact h

/-- Keys after `Object.assign`: keys of the target or of the source. -/
theorem opKeys_assign_sub {α : Type} {t s : OpMap α} {q : String}
    (h : q ∈ opKeys (opAssign t s)) : q ∈ opKeys t ∨ q ∈ opKeys s := by
  induction s generalizing t with
  | nil => exact Or.inl h
  | cons kv rest ih =>
    have h' := h
    unfold opAssign at h'
    simp only [List.foldl_cons] at h'
    rcases ih (t := opInsert t kv.1 kv.2) h' with hin | hin
    · rcases opKeys_insert_sub hin with h2 | h2
      · exact Or.inl h2
      · right
        simp [opKeys, h2]
    · right
      simp only [opKeys, List.map_cons, List.mem_cons]
      exact Or.inr hin

/-- Keys surviving the `_id` deletion are original keys. -/
theorem opKeys_eraseId_sub {α : Type} {m : OpMap α} {q : String}
    (h : q ∈ opKeys (opEraseId m)) : q ∈ opKeys m := by
  unfold opEraseId at h
  simp only [opKeys, List.mem_map] at h ⊢
  obtain ⟨kv, hkv, hq⟩ := h
  exact ⟨kv, List.mem_of_mem_filter hkv, hq⟩

/-- The `_id` key never survives the deletion. -/
theorem opKeys_eraseId_ne {α : Type} {m : OpMap α} {q : String}
    (h : q ∈ opKeys (opEraseId m)) : q ≠ "_id" := by
  unfold opEraseId at h
  simp only [opKeys, List.mem_map] at h
  obtain ⟨kv, hkv, hq⟩ := h
  have := List.of_mem_filter hkv
  subst hq
  simpa using this

/-- Paths of a merged accumulator come from either side, operator by
operator. -/
theorem mergeSub_sub {d sub : UpdateFilter} {q : String} :
    (q ∈ opKeys (mergeSub d sub).set → q ∈ opKeys d.set ∨ q ∈ opKeys sub.set)
    ∧ (q ∈ opKeys (mergeSub d sub).unset → q ∈ opKeys d.unset ∨ q ∈ opKeys sub.unset)
    ∧ (q ∈ opKeys (mergeSub d sub).push → q ∈ opKeys d.push ∨ q ∈ opKeys sub.push) := by
  refine ⟨fun h => ?_, fun h => ?_, fun h => ?_⟩ <;>
  · rcases opKeys_assign_sub h with h2 | h2
    · exact Or.inl h2
    · exact Or.inr (opKeys_eraseId_sub h2)

/-- All paths of a merged accumulator. -/
theorem mergeSub_paths {d sub : UpdateFilter} {q : String}
    (h : q ∈ pathsOfUF (mergeSub d sub)) : q ∈ pathsOfUF d ∨ q ∈ pathsOfUF sub := by
  simp only [pathsOfUF, List.mem_append] at h ⊢
  rcases h with (h | h) | h
  · rcases mergeSub_sub.1 h with h2 | h2
    · exact Or.inl (Or.inl (Or.inl h2))
    · exact Or.inr (Or.inl (Or.inl h2))
  · rcases mergeSub_sub.2.1 h with h2 | h2
    · exact Or.inl (Or.inl (Or.inr h2))
    · exact Or.inr (Or.inl (Or.inr h2))
  · rcases mergeSub_sub.2.2 h with h2 | h2
    · exact Or.inl (Or.inr h2)
    · exact Or.inr (Or.inr h2)

/-- Merging preserves cross-operator disjointness when the two sides'
paths cannot collide. -/
theorem noOverlap_merge {d sub : UpdateFilter}
    (hd : NoOverlapUF d) (hs : NoOverlapUF sub)
    (hsep : ∀ q1 ∈ pathsOfUF d, ∀ q2 ∈ pathsOfUF sub, q1 ≠ q2) :
    NoOverlapUF (mergeSub d sub) := by
  obtain ⟨hd1, hd2, hd3⟩ := hd
  obtain ⟨hs1, hs2, hs3⟩ := hs
  have inSet : ∀ {q : String}, q ∈ opKeys d.set → q ∈ pathsOfUF d :=
    fun h => by simp [pathsOfUF, h]
  have inUnset : ∀ {q : String}, q ∈ opKeys d.unset → q ∈ pathsOfUF d :=
    fun h => by simp [pathsOfUF, h]
  have inPush : ∀ {q : String}, q ∈ opKeys d.push → q ∈ pathsOfUF d :=
    fun h => by simp [pathsOfUF, h]
  have inSetS : ∀ {q : String}, q ∈ opKeys sub.set → q ∈ pathsOfUF sub :=
    fun h => by simp [pathsOfUF, h]
  have inUnsetS : ∀ {q : String}, q ∈ opKeys sub.unset → q ∈ pathsOfUF sub :=
    fun h => by simp [pathsOfUF, h]
  have inPushS : ∀ {q : String}, q ∈ opKeys sub.push → q ∈ pathsOfUF sub :=
    fun h => by simp [pathsOfUF, h]
  refine ⟨fun q hq hq2 => ?_, fun q hq hq2 => ?_, fun q hq hq2 => ?_⟩
  · rcases mergeSub_sub.1 hq with h1 | h1 <;> rcases mergeSub_sub.2.1 hq2 with h2 | h2
    · exact hd1 q h1 h2
    · exact hsep q (inSet h1) q (inUnsetS h2) rfl
    · exact hsep q (inUnset h2) q (inSetS h1) rfl
    · exact hs1 q h1 h2
  · rcases mergeSub_sub.1 hq with h1 | h1 <;> rcases mergeSub_sub.2.2 hq2 with h2 | h2
    · exact hd2 q h1 h2
    · exact hsep q (inSet h1) q (inPushS h2) rfl
    · exact hsep q (inPush h2) q (inSetS h1) rfl
    · exact hs2 q h1 h2
  · rcases mergeSub_sub.2.1 hq with h1 | h1 <;> rcases mergeSub_sub.2.2 hq2 with h2 | h2
    · exact hd3 q h1 h2
    · exact hsep q (inUnset h1) q (inPushS h2) rfl
    · exact hsep q (inPush h2) q (inUnsetS h1) rfl
    · exact hs3 q h1 h2

/-- A filter whose only populated record is a given one. -/
theorem noOverlap_single_set (p : String) (e : Value) :
    NoOverlapUF { emptyUF with set := [(p, e)] } := by
  refine ⟨fun q hq hq2 => ?_, fun q hq hq2 => ?_, fun q hq hq2 => ?_⟩ <;>
    simp [opKeys, emptyUF] at *

/-- A filter holding a single unset. -/
theorem noOverlap_single_unset (p : String) :
    NoOverlapUF { emptyUF with unset := [(p, "")] } := by
  refine ⟨fun q hq hq2 => ?_, fun q hq hq2 => ?_, fun q hq hq2 => ?_⟩ <;>
    simp [opKeys, emptyUF] at *

/-- A filter holding a single push. -/
theorem noOverlap_single_push (p : String) (pl : PushPayload) :
    NoOverlapUF { emptyUF with push := [(p, pl)] } := by
  refine ⟨fun q hq hq2 => ?_, fun q hq hq2 => ?_, fun q hq hq2 => ?_⟩ <;>
    simp [opKeys, emptyUF] at *

/-- The empty filter has no overlap. -/
theorem noOverlap_emptyUF : NoOverlapUF emptyUF := by
  refine ⟨fun q hq hq2 => ?_, fun q hq hq2 => ?_, fun q hq hq2 => ?_⟩ <;>
    simp [opKeys, emptyUF] at *

/-- Every path of the unset record built for removed keys is the dotted path
of a key of `a` that is absent from `b`. -/
theorem unsetRemoved_paths {pfx : String} {a : Value} {bfs : List (String × Value)}
    {q : String} (h : q ∈ opKeys (unsetRemoved pfx a bfs)) :
    ∃ k0, q = pathStr pfx k0 ∧ k0 ∈ (jsEntries a).map Prod.fst
      ∧ (bfs.map Prod.fst).contains k0 = false := by
  unfold unsetRemoved at h
  rw [show ((jsEntries a).map Prod.fst) = ((jsEntries a).map Prod.fst) from rfl] at h
  revert h
  generalize hks : (jsEntries a).map Prod.fst = ks
  have main : ∀ (init : OpMap String),
      (∀ q0 ∈ opKeys init, ∃ k0, q0 = pathStr pfx k0 ∧ k0 ∈ ks
        ∧ (bfs.map Prod.fst).contains k0 = false) →
      ∀ q0 ∈ opKeys (ks.foldl
        (fun m k => if (bfs.map Prod.fst).contains k then m
                    else opInsert m (pathStr pfx k) "") init),
      ∃ k0, q0 = pathStr pfx k0 ∧ k0 ∈ ks
        ∧ (bfs.map Prod.fst).contains k0 = false := by
    have gen : ∀ (l : List String) (init : OpMap String),
        (∀ k ∈ l, k ∈ ks) →
        (∀ q0 ∈ opKeys init, ∃ k0, q0 = pathStr pfx k0 ∧ k0 ∈ ks
          ∧ (bfs.map Prod.fst).contains k0 = false) →
        ∀ q0 ∈ opKeys (l.foldl
          (fun m k => if (bfs.map Prod.fst).contains k then m
                      else opInsert m (pathStr pfx k) "") init),
        ∃ k0, q0 = pathStr pfx k0 ∧ k0 ∈ ks
          ∧ (bfs.map Prod.fst).contains k0 = false := by
      intro l
      induction l with
      | nil => intro init _ hinit q0 hq0; exact hinit q0 hq0
      | cons khd ktl ih =>
        intro init hmem hinit q0 hq0
        simp only [List.foldl_cons] at hq0
        by_cases hb : (bfs.map Prod.fst).contains khd
        · rw [if_pos hb] at hq0
          exact ih init (fun k hk => hmem k (List.mem_cons_of_mem _ hk)) hinit q0 hq0
        · rw [if_neg hb] at hq0
          refine ih (opInsert init (pathStr pfx khd) "")
            (fun k hk => hmem k (List.mem_cons_of_mem _ hk)) ?_ q0 hq0
          intro q1 hq1
          rcases opKeys_insert_sub hq1 with h1 | h1
          · exact hinit q1 h1
          · exact ⟨khd, h1, hmem khd (List.mem_cons_self _ _),
              Bool.not_eq_true _ ▸ by simpa using hb⟩
    exact fun init => gen ks init (fun k hk => hk)
  exact fun h => main [] (by simp [opKeys]) _ h

/-- Field facts from `segKeysFields`. -/
theorem segKeysFields_mem {fs : List (String × Value)} {k : String} {v : Value}
    (h : segKeysFields fs = true) (hm : (k, v) ∈ fs) :
    k ≠ "" ∧ '.' ∉ k.data ∧ segKeys v = true := by
  induction fs with
  | nil => cases hm
  | cons kv rest ih =>
    obtain ⟨k1, v1⟩ := kv
    obtain ⟨h1, h2, h3, h4⟩ : k1 ≠ "" ∧ ¬k1.data.contains '.' = true
        ∧ segKeys v1 = true ∧ segKeysFields rest = true := by
      simpa [segKeysFields, and_assoc] using h
    rcases List.mem_cons.mp hm with heq | hrest
    · cases heq
      exact ⟨h1, by simpa [List.contains_eq_any_beq, List.any_eq_true] using h2, h3⟩
    · exact ih h4 hrest

/-- The key list of an object with valid segment keys. -/
theorem segKeys_obj_keys {fs : List (String × Value)} {k : String}
    (h : segKeysFields fs = true) (hm : k ∈ fs.map Prod.fst) : SegValid k := by
  obtain ⟨kv, hkv, rfl⟩ := List.mem_map.mp hm
  obtain ⟨k1, v1⟩ := kv
  obtain ⟨h1, h2, _⟩ := segKeysFields_mem h hkv
  exact ⟨h1, h2⟩

/-- The property read of a value with valid segment keys keeps them valid. -/
theorem segKeys_jsGet {a : Value} (k : String) (h : segKeys a = true) :
    segKeys (jsGet a k) = true := by
  cases a <;> try simp [jsGet, segKeys]
  case obj fs =>
    cases hf : fs.find? (fun kv => kv.1 == k) with
    | none => simp [jsGet, hf, segKeys]
    | some kv =>
      obtain ⟨k1, v1⟩ := kv
      have hmem := List.mem_of_find?_eq_some hf
      have := (segKeysFields_mem (by simpa [segKeys] using h) hmem).2.2
      simpa [jsGet, hf] using this

/-- Field facts from `nodupKeysFields`. -/
theorem nodupKeysFields_mem {fs : List (String × Value)} {k : String} {v : Value}
    (h : nodupKeysFields fs = true) (hm : (k, v) ∈ fs) : nodupKeys v = true := by
  induction fs with
  | nil => cases hm
  | cons kv rest ih =>
    obtain ⟨k1, v1⟩ := kv
    obtain ⟨h1, h2⟩ : nodupKeys v1 = true ∧ nodupKeysFields rest = true := by
      simpa [nodupKeysFields] using h
    rcases List.mem_cons.mp hm with heq | hrest
    · cases heq
      exact h1
    · exact ih h2 hrest

/-- Field facts from `undefFreeFields`. -/
theorem undefFreeFields_mem {fs : List (String × Value)} {k : String} {v : Value}
    (h : undefFreeFields fs = true) (hm : (k, v) ∈ fs) : undefFree v = true := by
  induction fs with
  | nil => cases hm
  | cons kv rest ih =>
    obtain ⟨k1, v1⟩ := kv
    obtain ⟨h1, h2⟩ : undefFree v1 = true ∧ undefFreeFields rest = true := by
      simpa [undefFreeFields] using h
    rcases List.mem_cons.mp hm with heq | hrest
    · cases heq
      exact h1
    · exact ih h2 hrest

/-- Merging two fresh filters is a fresh filter. -/
theorem mergeSub_empty : mergeSub emptyUF emptyUF = emptyUF := rfl

/-- The removed-key unsets of a value against its own fields are empty. -/
theorem unsetRemoved_self {pfx : String} {fs : List (String × Value)} :
    unsetRemoved pfx (.obj fs) fs = [] := by
  unfold unsetRemoved
  have main : ∀ ks : List String, (∀ k ∈ ks, k ∈ fs.map Prod.fst) →
      ks.foldl (fun m k => if (fs.map Prod.fst).contains k then m
                           else opInsert m (pathStr pfx k) "") [] = [] := by
    intro ks
    induction ks with
    | nil => intro _; rfl
    | cons k rest ih =>
      intro hmem
      have hcont : (fs.map Prod.fst).contains k = true := by
        rw [List.contains_eq_any_beq]
        exact List.any_eq_true.mpr ⟨k, hmem k (List.mem_cons_self _ _), by simp⟩
      simp only [List.foldl_cons, if_pos hcont]
      exact ih (fun x hx => hmem x (List.mem_cons_of_mem _ hx))
  exact main _ (fun k hk => by simpa [jsEntries] using hk)

mutual

/-- Diffing a value against itself produces the empty filter, for values
free of `undefined` and with duplicate-free object keys. -/
theorem changes_self : ∀ (pfx : String) (v : Value), undefFree v = true →
    nodupKeys v = true → changes pfx v v = some emptyUF
  | _, .str _, _, _ => by simp [changes, changesPrim, beqV_refl]
  | _, .num _, _, _ => by simp [changes, changesPrim, beqV_refl]
  | _, .bool _, _, _ => by simp [changes, changesPrim, beqV_refl]
  | _, .null, _, _ => by simp [changes, changesPrim, beqV_refl]
  | _, .jsUndefined, h1, _ => by simp [undefFree] at h1
  | _, .oid _, _, _ => by simp [changes, changesPrim, beqV_refl]
  | _, .date _, _, _ => by simp [changes, changesPrim, beqV_refl]
  | _, .arr _, _, _ => by simp [changes, changesArr, beqV_refl]
  | _, .set _, _, _ => by simp [changes, changesSet, beqV_refl]
  | _, .map _, _, _ => by simp [changes, changesMap, beqV_refl]
  | pfx, .obj fs, h1, h2 => by
    have hfs1 : undefFreeFields fs = true := by simpa [undefFree] using h1
    obtain ⟨hdk, hfs2⟩ : keysDistinct (fs.map Prod.fst) = true
        ∧ nodupKeysFields fs = true := by simpa [nodupKeys] using h2
    have hrec := changesFields_self pfx (.obj fs) fs
      (fun kv hm => by
        obtain ⟨k0, v0⟩ := kv
        exact ⟨jsGet_obj_of_nodup hdk hm, undefFreeFields_mem hfs1 hm,
          nodupKeysFields_mem hfs2 hm⟩)
    simp only [changes, EJSONCompatible, Bool.false_eq_true, if_false,
      changesObjRest, unsetRemoved_self]
    exact hrec

/-- Folding the self-diff over fields keeps the accumulator fresh. -/
theorem changesFields_self : ∀ (pfx : String) (a : Value)
    (fs : List (String × Value)),
    (∀ kv ∈ fs, jsGet a kv.1 = kv.2 ∧ undefFree kv.2 = true
      ∧ nodupKeys kv.2 = true) →
    changesFields pfx a fs emptyUF = some emptyUF
  | _, _, [], _ => by simp [changesFields]
  | pfx, a, (k, v) :: rest, h => by
    obtain ⟨hg, hu, hn⟩ := h (k, v) (List.mem_cons_self _ _)
    have hrec1 : changes (pathStr pfx k) (jsGet a k) v = some emptyUF := by
      rw [hg]
      exact changes_self (pathStr pfx k) v hu hn
    have hrec2 := changesFields_self pfx a rest
      (fun kv hm => h kv (List.mem_cons_of_mem _ hm))
    simp only [changesFields, hrec1, mergeSub_empty]
    exact hrec2

end

/-- Membership gives containment for string lists. -/
theorem mem_keys_contains {l : List String} {k : String} (h : k ∈ l) :
    l.contains k = true := by
  rw [List.contains_eq_any_beq]
  exact List.any_eq_true.mpr ⟨k, h, by simp⟩

/-- A filter holding only unsets. -/
theorem noOverlap_unsetOnly (u : OpMap String) :
    NoOverlapUF { emptyUF with unset := u } := by
  refine ⟨fun q hq hq2 => ?_, fun q hq hq2 => ?_, fun q hq hq2 => ?_⟩ <;>
    simp [opKeys, emptyUF] at *

/-- Leaf outcome: the empty filter. -/
theorem outShape_empty (pfx : String) :
    NoOverlapUF emptyUF
      ∧ (pfx ≠ "" → ∀ q ∈ pathsOfUF emptyUF, SegExt pfx q) :=
  ⟨noOverlap_emptyUF, fun _ q hq => by simp [pathsOfUF, opKeys, emptyUF] at hq⟩

/-- Leaf outcome: a single set at the current path. -/
theorem outShape_set (pfx : String) (e : Value) :
    NoOverlapUF { emptyUF with set := [(pfx, e)] }
      ∧ (pfx ≠ "" → ∀ q ∈ pathsOfUF { emptyUF with set := [(pfx, e)] },
          SegExt pfx q) := by
  refine ⟨noOverlap_single_set pfx e, fun _ q hq => ?_⟩
  have : q = pfx := by simpa [pathsOfUF, opKeys, emptyUF] using hq
  rw [this]
  exact segExt_refl pfx

/-- Leaf outcome: a single unset at the current path. -/
theorem outShape_unset (pfx : String) :
    NoOverlapUF { emptyUF with unset := [(pfx, "")] }
      ∧ (pfx ≠ "" → ∀ q ∈ pathsOfUF { emptyUF with unset := [(pfx, "")] },
          SegExt pfx q) := by
  refine ⟨noOverlap_single_unset pfx, fun _ q hq => ?_⟩
  have : q = pfx := by simpa [pathsOfUF, opKeys, emptyUF] using hq
  rw [this]
  exact segExt_refl pfx

/-- Leaf outcome: a single push at a path extending the current one. -/
theorem outShape_push (pfx key : String) (pl : PushPayload)
    (h : SegExt pfx key) :
    NoOverlapUF { emptyUF with push := [(key, pl)] }
      ∧ (pfx ≠ "" → ∀ q ∈ pathsOfUF { emptyUF with push := [(key, pl)] },
          SegExt pfx q) := by
  refine ⟨noOverlap_single_push key pl, fun _ q hq => ?_⟩
  have : q = key := by simpa [pathsOfUF, opKeys, emptyUF] using hq
  rw [this]
  exact h

/-- The tagged set path extends the current path. -/
theorem segExt_setTag (pfx : String) : SegExt pfx (pfx ++ "._JSSet") :=
  segExt_append pfx "._JSSet" rfl

/-- The tagged map path extends the current path. -/
theorem segExt_mapTag (pfx : String) : SegExt pfx (pfx ++ "._JSMap") :=
  segExt_append pfx "._JSMap" rfl

/-- Keys of an object's entries are valid segments when the value has valid
segment keys. -/
theorem segValid_of_entries {a : Value} (ha : segKeys a = true) {k0 : String}
    (h : k0 ∈ (jsEntries a).map Prod.fst) : SegValid k0 := by
  cases a <;> simp [jsEntries] at h
  case obj fs =>
    exact segKeys_obj_keys (by simpa [segKeys] using ha)
      (List.mem_map.mpr (by simpa using h))

mutual

/-- The paths emitted by `changes` never collide across operator kinds, and
every path extends the current prefix (when the prefix is non-root). -/
theorem changes_paths : ∀ (pfx : String) (a b : Value) (d : UpdateFilter),
    segKeys a = true → segKeys b = true → nodupKeys b = true →
    changes pfx a b = some d →
    NoOverlapUF d ∧ (pfx ≠ "" → ∀ q ∈ pathsOfUF d, SegExt pfx q)
  | pfx, a, .jsUndefined, d, _, _, _, hc => by
    simp only [changes] at hc
    split at hc
    · cases hc
    · injection hc with h
      rw [← h]
      exact outShape_unset pfx
  | pfx, a, .str s, d, _, _, _, hc => by
    simp only [changes, changesPrim, encode] at hc
    split at hc
    · injection hc with h; rw [← h]; exact outShape_empty pfx
    · split at hc
      · cases hc
      · injection hc with h; rw [← h]; exact outShape_set pfx _
  | pfx, a, .num n, d, _, _, _, hc => by
    simp only [changes, changesPrim, encode] at hc
    split at hc
    · injection hc with h; rw [← h]; exact outShape_empty pfx
    · split at hc
      · cases hc
      · injection hc with h; rw [← h]; exact outShape_set pfx _
  | pfx, a, .bool c, d, _, _, _, hc => by
    simp only [changes, changesPrim, encode] at hc
    split at hc
    · injection hc with h; rw [← h]; exact outShape_empty pfx
    · split at hc
      · cases hc
      · injection hc with h; rw [← h]; exact outShape_set pfx _
  | pfx, a, .null, d, _, _, _, hc => by
    simp only [changes, changesPrim, encode] at hc
    split at hc
    · injection hc with h; rw [← h]; exact outShape_empty pfx
    · split at hc
      · cases hc
      · injection hc with h; rw [← h]; exact outShape_set pfx _
  | pfx, a, .oid n, d, _, _, _, hc => by
    simp only [changes, changesPrim, encode] at hc
    split at hc
    · injection hc with h; rw [← h]; exact outShape_empty pfx
    · split at hc
      · cases hc
      · injection hc with h; rw [← h]; exact outShape_set pfx _
  | pfx, a, .date n, d, _, _, _, hc => by
    simp only [changes, changesPrim, encode] at hc
    split at hc
    · injection hc with h; rw [← h]; exact outShape_empty pfx
    · split at hc
      · cases hc
      · injection hc with h; rw [← h]; exact outShape_set pfx _
  | pfx, a, .set bl, d, _, _, _, hc => by
    simp only [changes, changesSet] at hc
    split at hc
    · injection hc with h; rw [← h]; exact outShape_empty pfx
    · split at hc
      · cases hc
      · split at hc
        · split at hc
          · split at hc
            · injection hc with h; rw [← h]
              exact outShape_push pfx _ _ (segExt_setTag pfx)
            · cases hc
          · split at hc
            · injection hc with h; rw [← h]; exact outShape_set pfx _
            · cases hc
        · split at hc
          · injection hc with h; rw [← h]; exact outShape_set pfx _
          · cases hc
  | pfx, a, .map bl, d, _, _, _, hc => by
    simp only [changes, changesMap] at hc
    split at hc
    · injection hc with h; rw [← h]; exact outShape_empty pfx
    · split at hc
      · cases hc
      · split at hc
        · split at hc
          · split at hc
            · injection hc with h; rw [← h]
              exact outShape_push pfx _ _ (segExt_mapTag pfx)
            · cases hc
          · split at hc
            · injection hc with h; rw [← h]; exact outShape_set pfx _
            · cases hc
        · split at hc
          · injection hc with h; rw [← h]; exact outShape_set pfx _
          · cases hc
  | pfx, a, .arr bl, d, _, _, _, hc => by
    simp only [changes, changesArr] at hc
    split at hc
    · injection hc with h; rw [← h]; exact outShape_empty pfx
    · split at hc
      · cases hc
      · split at hc
        · split at hc
          · split at hc
            · injection hc with h; rw [← h]
              exact outShape_push pfx _ _ (segExt_refl pfx)
            · cases hc
          · split at hc
            · injection hc with h; rw [← h]; exact outShape_set pfx _
            · cases hc
        · split at hc
          · injection hc with h; rw [← h]; exact outShape_set pfx _
          · cases hc
  | pfx, a, .obj bfs, d, ha, hb, hnb, hc => by
    simp only [changes] at hc
    split at hc
    · simp only [changesPrim] at hc
      split at hc
      · injection hc with h; rw [← h]; exact outShape_empty pfx
      · split at hc
        · cases hc
        · split at hc
          · injection hc with h; rw [← h]; exact outShape_set pfx _
          · cases hc
    · rw [changesObjRest.eq_def] at hc
      split at hc
      · split at hc
        · cases hc
        · split at hc
          · injection hc with h; rw [← h]; exact outShape_set pfx _
          · cases hc
      · cases hc
      · have hbf : segKeysFields bfs = true := by simpa [segKeys] using hb
        obtain ⟨hdk, hnf⟩ : keysDistinct (bfs.map Prod.fst) = true
            ∧ nodupKeysFields bfs = true := by simpa [nodupKeys] using hnb
        have hP0 : ∀ q ∈ pathsOfUF { emptyUF with
            unset := unsetRemoved pfx a bfs },
            ∃ k0, q = pathStr pfx k0 ∧ SegValid k0
              ∧ (bfs.map Prod.fst).contains k0 = false := by
          intro q hq
          have hq2 : q ∈ opKeys (unsetRemoved pfx a bfs) := by
            simpa [pathsOfUF, opKeys, emptyUF] using hq
          obtain ⟨k0, rfl, hmem, hcf⟩ := unsetRemoved_paths hq2
          exact ⟨k0, rfl, segValid_of_entries ha hmem, hcf⟩
        have hsep : ∀ q1 q2,
            (∃ k0, q1 = pathStr pfx k0 ∧ SegValid k0
              ∧ (bfs.map Prod.fst).contains k0 = false) →
            ∀ kv ∈ bfs, SegExt (pathStr pfx kv.1) q2 → q1 ≠ q2 := by
          rintro q1 q2 ⟨k0, rfl, hv0, hcf⟩ ⟨k1, v1⟩ hm hse
          have hv1 : SegValid k1 :=
            segKeys_obj_keys hbf (List.mem_map.mpr ⟨(k1, v1), hm, rfl⟩)
          have hne : k0 ≠ k1 := by
            rintro rfl
            rw [mem_keys_contains (List.mem_map.mpr ⟨(k0, v1), hm, rfl⟩)] at hcf
            cases hcf
          exact pathSep hne hv0 hv1 (segExt_refl _) hse
        obtain ⟨hfin1, hfin2⟩ := changesFields_paths pfx a bfs
          { emptyUF with unset := unsetRemoved pfx a bfs } d _ ha hbf hnf hdk hc
          hP0 hsep (noOverlap_unsetOnly _)
        refine ⟨hfin1, fun hpfx q hq => ?_⟩
        rcases hfin2 q hq with ⟨k0, rfl, _, _⟩ | ⟨kv, _, hse⟩
        · exact segExt_pathStr pfx k0 hpfx
        · exact segExt_trans_pathStr hpfx hse

/-- The fold over fields keeps cross-operator disjointness, and every new
path extends the dotted path of one of the fields. -/
theorem changesFields_paths : ∀ (pfx : String) (a : Value)
    (fields : List (String × Value)) (d0 d : UpdateFilter) (P : String → Prop),
    segKeys a = true → segKeysFields fields = true →
    nodupKeysFields fields = true →
    keysDistinct (fields.map Prod.fst) = true →
    changesFields pfx a fields d0 = some d →
    (∀ q ∈ pathsOfUF d0, P q) →
    (∀ q1 q2, P q1 → ∀ kv ∈ fields, SegExt (pathStr pfx kv.1) q2 → q1 ≠ q2) →
    NoOverlapUF d0 →
    NoOverlapUF d
      ∧ ∀ q ∈ pathsOfUF d, P q ∨ ∃ kv ∈ fields, SegExt (pathStr pfx kv.1) q
  | pfx, a, [], d0, d, P, _, _, _, _, hc, hP0, _, hd0 => by
    simp only [changesFields] at hc
    injection hc with h
    rw [← h]
    exact ⟨hd0, fun q hq => Or.inl (hP0 q hq)⟩
  | pfx, a, (k, v) :: rest, d0, d, P, ha, hsf, hnf, hdk, hc, hP0, hsep, hd0 => by
    obtain ⟨hk1, hk2, hk3, hk4⟩ : k ≠ "" ∧ ¬k.data.contains '.' = true
        ∧ segKeys v = true ∧ segKeysFields rest = true := by
      simpa [segKeysFields, and_assoc] using hsf
    have hkvalid : SegValid k :=
      ⟨hk1, by simpa [List.contains_eq_any_beq, List.any_eq_true] using hk2⟩
    obtain ⟨hn1, hn2⟩ : nodupKeys v = true ∧ nodupKeysFields rest = true := by
      simpa [nodupKeysFields] using hnf
    obtain ⟨hd1, hd2⟩ : ¬(rest.map Prod.fst).contains k = true
        ∧ keysDistinct (rest.map Prod.fst) = true := by
      simpa [keysDistinct] using hdk
    simp only [changesFields] at hc
    split at hc
    case h_2 => cases hc
    case h_1 sub heq =>
      have hsub := changes_paths (pathStr pfx k) (jsGet a k) v sub
        (segKeys_jsGet k ha) hk3 hn1 heq
      have hsubpaths : ∀ q ∈ pathsOfUF sub, SegExt (pathStr pfx k) q :=
        hsub.2 (pathStr_ne_empty hk1)
      have hmerge := noOverlap_merge hd0 hsub.1
        (fun q1 h1 q2 h2 =>
          hsep q1 q2 (hP0 q1 h1) (k, v) (List.mem_cons_self _ _)
            (hsubpaths q2 h2))
      have hP1 : ∀ q ∈ pathsOfUF (mergeSub d0 sub),
          P q ∨ SegExt (pathStr pfx k) q := by
        intro q hq
        rcases mergeSub_paths hq with h1 | h1
        · exact Or.inl (hP0 q h1)
        · exact Or.inr (hsubpaths q h1)
      have hsep1 : ∀ q1 q2, (P q1 ∨ SegExt (pathStr pfx k) q1) →
          ∀ kv ∈ rest, SegExt (pathStr pfx kv.1) q2 → q1 ≠ q2 := by
        rintro q1 q2 (hp | hse1) ⟨kk, vv⟩ hm hse2
        · exact hsep q1 q2 hp (kk, vv) (List.mem_cons_of_mem _ hm) hse2
        · have hvk : SegValid kk :=
            segKeys_obj_keys hk4 (List.mem_map.mpr ⟨(kk, vv), hm, rfl⟩)
          have hne : k ≠ kk := by
            rintro rfl
            exact hd1 (mem_keys_contains
              (List.mem_map.mpr ⟨(k, vv), hm, rfl⟩))
          exact pathSep hne hkvalid hvk hse1 hse2
      obtain ⟨hr1, hr2⟩ := changesFields_paths pfx a rest (mergeSub d0 sub) d
        (fun q => P q ∨ SegExt (pathStr pfx k) q) ha hk4 hn2 hd2 hc hP1 hsep1
        hmerge
      refine ⟨hr1, fun q hq => ?_⟩
      rcases hr2 q hq with (hp | hse) | ⟨kv, hm, hse⟩
      · exact Or.inl hp
      · exact Or.inr ⟨(k, v), List.mem_cons_self _ _, hse⟩
      · exact Or.inr ⟨kv, List.mem_cons_of_mem _ hm, hse⟩

end

/-- A key of the rendered `$set` record is an original key other than `_id`. -/
theorem parsed_set_sub {d : UpdateFilter} {q : String}
    (h : q ∈ opKeys (d.parse.set.getD [])) : q ∈ opKeys d.set ∧ q ≠ "_id" := by
  unfold UpdateFilter.parse at h
  by_cases he : d.set.isEmpty <;> simp only [he, if_true, if_false] at h
  · simp [opKeys] at h
  · exact ⟨opKeys_eraseId_sub h, opKeys_eraseId_ne h⟩

/-- A key of the rendered `$unset` record is an original key other than
`_id`. -/
theorem parsed_unset_sub {d : UpdateFilter} {q : String}
    (h : q ∈ opKeys (d.parse.unset.getD [])) : q ∈ opKeys d.unset ∧ q ≠ "_id" := by
  unfold UpdateFilter.parse at h
  by_cases he : d.unset.isEmpty <;> simp only [he, if_true, if_false] at h
  · simp [opKeys] at h
  · exact ⟨opKeys_eraseId_sub h, opKeys_eraseId_ne h⟩

/-- A key of the rendered `$push` record is an original key other than
`_id`. -/
theorem parsed_push_sub {d : UpdateFilter} {q : String}
    (h : q ∈ opKeys (d.parse.push.getD [])) : q ∈ opKeys d.push ∧ q ≠ "_id" := by
  unfold UpdateFilter.parse at h
  by_cases he : d.push.isEmpty <;> simp only [he, if_true, if_false] at h
  · simp [opKeys] at h
  · exact ⟨opKeys_eraseId_sub h, opKeys_eraseId_ne h⟩

/-- Cross-operator disjointness carries from a filter to its rendering. -/
theorem noOverlapParsed_of (d : UpdateFilter) (h : NoOverlapUF d) :
    NoOverlapParsed d.parse := by
  obtain ⟨h1, h2, h3⟩ := h
  refine ⟨fun q hq hq2 => ?_, fun q hq hq2 => ?_, fun q hq hq2 => ?_⟩
  · exact h1 q (parsed_set_sub hq).1 (parsed_unset_sub hq2).1
  · exact h2 q (parsed_set_sub hq).1 (parsed_push_sub hq2).1
  · exact h3 q (parsed_unset_sub hq).1 (parsed_push_sub hq2).1

/-- C4: the claimed unconditional ChangeSet invariant, amended: over inputs
whose object keys are valid Mongo segments (non-empty, dot-free) and
duplicate-free, the rendered ChangeSet of a root diff never carries one
field path under two operation kinds; and unconditionally, the `_id` field
never appears under any operation kind of the rendered ChangeSet.  (Keys
containing a `.` break the first part; see the counterexample.) -/
theorem claim4_changeset_invariant_amended (a b : Value) (d : UpdateFilter)
    (hc : changes "" a b = some d) :
    ((segKeys a = true ∧ segKeys b = true ∧ nodupKeys b = true) →
      NoOverlapParsed d.parse)
    ∧ (∀ q ∈ opKeys (d.parse.set.getD []), q ≠ "_id")
    ∧ (∀ q ∈ opKeys (d.parse.unset.getD []), q ≠ "_id")
    ∧ (∀ q ∈ opKeys (d.parse.push.getD []), q ≠ "_id") := by
  refine ⟨fun ⟨ha, hb, hnb⟩ => ?_, fun q hq => (parsed_set_sub hq).2,
    fun q hq => (parsed_unset_sub hq).2, fun q hq => (parsed_push_sub hq).2⟩
  exact noOverlapParsed_of d (changes_paths "" a b d ha hb hnb hc).1

/-- C4 counterexample: with a key containing a dot, the rendered ChangeSet
of `changes` carries the same path (`x.y`) under both `$set` and `$unset`,
falsifying the unconditional invariant. -/
theorem claim4_changeset_invariant_counterexample :
    changes "" (.obj [("x.y", .num 1), ("x", .obj [("y", .num 1)])])
      (.obj [("x", .obj [("y", .num 2)])])
      = some ⟨[("x.y", .num 2)], [("x.y", "")], []⟩
    ∧ "x.y" ∈ opKeys ((UpdateFilter.parse
        ⟨[("x.y", .num 2)], [("x.y", "")], []⟩).set.getD [])
    ∧ "x.y" ∈ opKeys ((UpdateFilter.parse
        ⟨[("x.y", .num 2)], [("x.y", "")], []⟩).unset.getD []) := by
  refine ⟨?_, ?_, ?_⟩
  · simp [changes, changesFields, changesObjRest, changesPrim, unsetRemoved,
      jsEntries, jsGet, pathStr, EJSONCompatible, beqV, beqFieldsV, beqPairsV,
      mergeSub, opAssign, opEraseId, opInsert, emptyUF, encode]
  · simp [UpdateFilter.parse, opKeys, opEraseId]
  · simp [UpdateFilter.parse, opKeys, opEraseId]

/-- C4 witness: a concrete seg-valid diff satisfying the amended invariant. -/
theorem claim4_changeset_invariant_witness :
    changes "" (.obj [("a", .num 1), ("b", .num 2)])
      (.obj [("b", .num 3)]) = some ⟨[("b", .num 3)], [("a", "")], []⟩
    ∧ (segKeys (Value.obj [("a", .num 1), ("b", .num 2)]) = true
        ∧ segKeys (Value.obj [("b", .num 3)]) = true
        ∧ nodupKeys (Value.obj [("b", .num 3)]) = true)
    ∧ NoOverlapParsed (UpdateFilter.parse ⟨[("b", .num 3)], [("a", "")], []⟩)
    ∧ (∀ q ∈ opKeys ((UpdateFilter.parse
        ⟨[("b", .num 3)], [("a", "")], []⟩).set.getD []), q ≠ "_id") := by
  have hc : changes "" (.obj [("a", .num 1), ("b", .num 2)])
      (.obj [("b", .num 3)])
      = some ⟨[("b", .num 3)], [("a", "")], []⟩ := by
    simp [changes, changesFields, changesObjRest, changesPrim, unsetRemoved,
      jsEntries, jsGet, pathStr, EJSONCompatible, beqV, beqFieldsV,
      mergeSub, opAssign, opEraseId, opInsert, emptyUF, encode]
  have hseg : segKeys (Value.obj [("a", .num 1), ("b", .num 2)]) = true
      ∧ segKeys (Value.obj [("b", .num 3)]) = true
      ∧ nodupKeys (Value.obj [("b", .num 3)]) = true := by
    refine ⟨?_, ?_, ?_⟩ <;> rfl
  have hmain := claim4_changeset_invariant_amended _ _ _ hc
  exact ⟨hc, hseg, hmain.1 hseg, hmain.2.1⟩

/-- C7: the claimed unconditional idempotence, amended: diffing a value
against itself yields the empty change-set for every value free of
`undefined` members (duplicate-free object keys being the invariant of any
actual JavaScript object tree).  The absent value itself is diffed to an
`$unset`; see the counterexample. -/
theorem claim7_diff_idempotent_amended (pfx : String) (v : Value)
    (h1 : undefFree v = true) (h2 : nodupKeys v = true) :
    changes pfx v v = some emptyUF :=
  changes_self pfx v h1 h2

/-- C7 counterexample: diffing the absent value (`undefined`) against
itself emits an `$unset` at the path, not the empty change-set. -/
theorem claim7_diff_idempotent_counterexample :
    changes "p" .jsUndefined .jsUndefined = some { set := [], unset := [("p", "")], push := [] }
    ∧ some ({ set := [], unset := [("p", "")], push := [] } : UpdateFilter)
      ≠ some emptyUF := by
  constructor
  · simp [changes, emptyUF]
  · intro h
    injection h with h2
    have := congrArg UpdateFilter.unset h2
    simp [emptyUF] at this

/-- C7 witness: a nested concrete value diffed against itself. -/
theorem claim7_diff_idempotent_witness :
    undefFree (Value.obj [("a", .set [.num 1]), ("b", .obj [("c", .arr [.null])]),
      ("d", .map [(.str "k", .num 2)])]) = true
    ∧ nodupKeys (Value.obj [("a", .set [.num 1]), ("b", .obj [("c", .arr [.null])]),
      ("d", .map [(.str "k", .num 2)])]) = true
    ∧ changes "p" (Value.obj [("a", .set [.num 1]), ("b", .obj [("c", .arr [.null])]),
      ("d", .map [(.str "k", .num 2)])])
      (Value.obj [("a", .set [.num 1]), ("b", .obj [("c", .arr [.null])]),
      ("d", .map [(.str "k", .num 2)])]) = some emptyUF :=
  ⟨rfl, rfl, claim7_diff_idempotent_amended "p" _ rfl rfl⟩

/-- C2: the transcoder round-trip: for every value free of `undefined` and
of reserved tag-key collisions, encoding succeeds and decoding the encoded
wire value returns the original value. -/
theorem claim2_transcoder_roundtrip (v : Value) (h1 : undefFree v = true)
    (h2 : noTagKeys v = true) :
    ∃ w, encode v = some w ∧ decode w = some v :=
  roundtripV v h1 h2

/-- C2 witness: a deeply nested value with Sets of Maps, Maps of Sets,
empty collections, a temporal instant and nested objects. -/
theorem claim2_transcoder_roundtrip_witness :
    undefFree (Value.obj [("s", .set [.map [(.str "k", .set [])]]),
      ("m", .map [(.set [.num 1], .obj [])]), ("d", .date 99),
      ("e", .arr []), ("o", .obj [("x", .obj [("y", .null)])])]) = true
    ∧ noTagKeys (Value.obj [("s", .set [.map [(.str "k", .set [])]]),
      ("m", .map [(.set [.num 1], .obj [])]), ("d", .date 99),
      ("e", .arr []), ("o", .obj [("x", .obj [("y", .null)])])]) = true
    ∧ ∃ w, encode (Value.obj [("s", .set [.map [(.str "k", .set [])]]),
        ("m", .map [(.set [.num 1], .obj [])]), ("d", .date 99),
        ("e", .arr []), ("o", .obj [("x", .obj [("y", .null)])])]) = some w
      ∧ decode w = some (Value.obj [("s", .set [.map [(.str "k", .set [])]]),
        ("m", .map [(.set [.num 1], .obj [])]), ("d", .date 99),
        ("e", .arr []), ("o", .obj [("x", .obj [("y", .null)])])]) :=
  ⟨rfl, rfl, claim2_transcoder_roundtrip _ rfl rfl⟩

/-- C1: the diff-apply law fails on the code.  Diffing a document whose
field holds an (empty) Set against one holding an (empty) plain object
returns the empty change-set — the differencer's `typeof` test cannot
separate a Set from a record, so the Set is traversed as a keyless record —
although the two documents are not deep-equal.  Applying the empty
change-set to `before` leaves `before`, so no reading of apply can reach
`after`; the spec requires a full `$set` at the path for a kind mismatch. -/
theorem claim1_diff_apply_code_bug :
    changes "" (.obj [("p", .set [])]) (.obj [("p", .obj [])]) = some emptyUF
    ∧ (emptyUF.parse).isEmpty = true
    ∧ beqV (.obj [("p", .set [])]) (.obj [("p", .obj [])]) = false
    ∧ (Value.obj [("p", .set [])]) ≠ (Value.obj [("p", .obj [])]) := by
  refine ⟨?_, rfl, rfl, ?_⟩
  · simp [changes, changesFields, changesObjRest, unsetRemoved, jsEntries,
      jsGet, pathStr, EJSONCompatible, beqV, beqFieldsV, beqListV, mergeSub,
      opAssign, opEraseId, opInsert, emptyUF]
  · intro h
    injection h with hf
    simp at hf

/-- The pagination scenario document: `{n: i}`. -/
def pagDoc (i : Int) : Value := .obj [("n", .num i)]

/-- The scenario predicate: matches documents with `n >= 5`. -/
def pagPred : Value → Bool := fun v =>
  match jsGet v "n" with
  | .num n => decide (5 ≤ n)
  | _ => false

/-- Ten scenario documents, of which the predicate matches exactly six. -/
def pagStore : List Value :=
  [pagDoc 1, pagDoc 2, pagDoc 3, pagDoc 4, pagDoc 5,
   pagDoc 6, pagDoc 7, pagDoc 8, pagDoc 9, pagDoc 10]

/-- The scenario options: `skip(2).limit(3)`. -/
def pagOptions : FindOptions := ⟨some 3, some 2, none, none, none⟩

/-- C3: pagination under predicate filtering is broken in the code.  Over
ten documents of which the predicate matches exactly six, `skip(2).limit(3)`
should yield the 3rd through 5th matching documents (`n = 7, 8, 9`).  The
skip branch of `next()` instead `continue`s over the same raw document
without pulling the next one, so the first matching document is counted
against the skip counter repeatedly and then yielded: repeated `next()`
calls produce the 1st through 3rd matches (`n = 5, 6, 7`).  The `for await`
iterator is worse: its `if (this._skip > this.skipped) continue` pre-check
never calls `next()`, so with a positive skip it loops forever and yields
nothing under any iteration budget. -/
theorem claim3_cursor_pagination_code_bug :
    (pagStore.filter (fun v => pagPred v)).length = 6
    ∧ (mkFindCursor pagStore (some (.pred pagPred)) (some pagOptions) none).map
        (fun c => drainFuel 30 c) = some [pagDoc 5, pagDoc 6, pagDoc 7]
    ∧ (∀ fuel, (mkFindCursor pagStore (some (.pred pagPred))
        (some pagOptions) none).map (fun c => iterFuel fuel c) = some [])
    ∧ [pagDoc 5, pagDoc 6, pagDoc 7] ≠ [pagDoc 7, pagDoc 8, pagDoc 9] := by
  refine ⟨rfl, rfl, fun fuel => ?_, ?_⟩
  · induction fuel with
    | zero => rfl
    | succ n ih => simpa [mkFindCursor, iterFuel, pagStore, pagOptions] using ih
  · intro h
    have := congrArg (fun l => List.head? l) h
    simp [pagDoc] at this

/-- The options used by the clone scenario. -/
def cloneOptions : FindOptions := ⟨some 3, some 2, some [("a", 1)], some "h", none⟩

/-- C5: `clone()` does not preserve limit and skip.  The constructor deletes
`limit`, `skip` and `populate` from the very options object it stores as
`this.options`, and `clone()` re-issues the constructor with that scrubbed
object: the clone keeps the filter, sort, hint and transform and its
counters start at zero, but its limit is `Infinity` and its skip `0`
instead of the original `3` and `2` — contradicting both the claim and the
method's own documentation. -/
theorem claim5_clone_code_bug :
    ∃ c, mkFindCursor [] (some (.filter (.obj []))) (some cloneOptions) none = some c
      ∧ c.limit = some 3 ∧ c.skip = 2
      ∧ ∃ cl, cloneCursor c = some cl
        ∧ cl.limit = none ∧ cl.skip = 0 ∧ cl.skipped = 0 ∧ cl.yielded = 0
        ∧ cl.search = c.search ∧ cl.options = c.options
        ∧ cl.transform = c.transform ∧ cl.store = c.store := by
  refine ⟨_, rfl, rfl, rfl, _, rfl, rfl, rfl, rfl, rfl, rfl, rfl, rfl, rfl⟩

/-- C8: `hasNext()` preserves the externally observable position.  It only
builds and probes an independent `clone().skip(this.yielded)`, so the
original cursor state is unchanged and every later sequence of `next()`
calls yields exactly what it would have without the probe. -/
theorem claim8_hasnext_preserves_position (c : FindCursor) :
    (cursorHasNext c).2 = c
    ∧ (∀ n, drainFuel n (cursorHasNext c).2 = drainFuel n c)
    ∧ (cursorHasNext c).1
      = (match (cloneCursor c).bind (fun cl => skipCursor cl c.yielded) with
         | none => none
         | some probe =>
           match (cursorNext probe).1 with
           | .yield _ => some true
           | .done => some false
           | .error => none) :=
  ⟨rfl, fun _ => rfl, rfl⟩

/-- A validator that accepts everything. -/
def validateNothing : Value → Option (List (String × String)) := fun _ => none

/-- The no-op message never coincides with a not-found message, whatever
the collection name: the latter always ends in "found". -/
theorem noop_msg_ne_notfound (nm : String) :
    ("No Updates to Make" : String) ≠ "No " ++ nm ++ " found" := by
  intro h
  have hd := congrArg (fun s : String => s.data.reverse.head?) h
  simp only [] at hd
  have hrhs : ("No " ++ nm ++ " found").data.reverse.head? = some 'd' := by
    show ("No ".data ++ nm.data ++ " found".data).reverse.head? = some 'd'
    simp [List.reverse_append]
  rw [hrhs] at hd
  simp at hd

/-- C9: when the target document is found, validation succeeds, and the
computed rendered ChangeSet is empty, `updateOne` performs no store write
(`wrote = false`, `findOneAndUpdate` never invoked), returns the structured
"No Updates to Make" error record rather than throwing, and that record
differs from the not-found outcome for every collection name (the
validation-failure outcome is excluded by the branch itself, since the
validator returned success). -/
theorem claim9_noop_update (name : String) (before : Value)
    (validate : Value → Option (List (String × String)))
    (applyUpdate : Value → Value) (storeUpdate : ParsedUF → Option Value)
    (diff : UpdateFilter)
    (hv : validate (applyUpdate before) = none)
    (hc : changes "" before (applyUpdate before) = some diff)
    (he : diff.parse.isEmpty = true) :
    updateOne name (some before) validate applyUpdate storeUpdate
      = some ⟨false, .err [("general", "No Updates to Make")]⟩
    ∧ ∀ nm : String,
        (JsResult.err [("general", "No Updates to Make")])
          ≠ .err [("general", "No " ++ nm ++ " found")] := by
  constructor
  · simp [updateOne, hv, hc, he]
  · intro nm h
    injection h with h2
    have := congrArg (fun l => (l.head?.map Prod.snd)) h2
    simp at this
    exact noop_msg_ne_notfound nm this

/-- C9 witness: a found document, a no-change update, a successful
validation: the call reports "No Updates to Make" without writing. -/
theorem claim9_noop_update_witness :
    validateNothing (Value.obj [("a", .num 1)]) = none
    ∧ changes "" (Value.obj [("a", .num 1)]) (Value.obj [("a", .num 1)])
        = some emptyUF
    ∧ (emptyUF.parse).isEmpty = true
    ∧ updateOne "User" (some (Value.obj [("a", .num 1)])) validateNothing
        (fun v => v) (fun _ => none)
      = some ⟨false, .err [("general", "No Updates to Make")]⟩ := by
  have hc : changes "" (Value.obj [("a", .num 1)]) (Value.obj [("a", .num 1)])
      = some emptyUF := by
    simp [changes, changesFields, changesObjRest, changesPrim, unsetRemoved,
      jsEntries, jsGet, pathStr, EJSONCompatible, beqV, mergeSub, opAssign,
      opEraseId, opInsert, emptyUF]
  exact ⟨rfl, hc, rfl,
    (claim9_noop_update "User" _ validateNothing (fun v => v) (fun _ => none)
      emptyUF rfl hc rfl).1⟩

/-- Decoding a plain object runs the entry loop. -/
theorem decode_obj (fs : List (String × Value)) :
    decode (.obj fs) = decodeEntries fs := by
  simp [decode]

/-- The entry loop fails on the first reserved tag entry when its payload
is not an array, provided no earlier entry is itself a reserved tag. -/
theorem decodeEntries_malformed :
    ∀ (pre : List (String × Value)) (k : String) (v : Value)
      (post : List (String × Value)),
      (k = "_JSSet" ∨ k = "_JSMap") →
      (∀ l, v ≠ .arr l) →
      (∀ kv ∈ pre, kv.1 ≠ "_JSSet" ∧ kv.1 ≠ "_JSMap") →
      decodeEntries (pre ++ (k, v) :: post) = none := by
  intro pre
  induction pre with
  | nil =>
    intro k v post hk hv _
    rw [List.nil_append, decodeEntries.eq_def]
    rcases hk with rfl | rfl <;>
      (cases v <;> first
        | exact absurd rfl (hv _)
        | simp)
  | cons kv0 rest ih =>
    intro k v post hk hv hpre
    obtain ⟨k0, v0⟩ := kv0
    obtain ⟨h1, h2⟩ := hpre (k0, v0) (List.mem_cons_self _ _)
    have ihres := ih k v post hk hv
      (fun kv hm => hpre kv (List.mem_cons_of_mem _ hm))
    rw [List.cons_append, decodeEntries.eq_def]
    cases hdec : decode v0 with
    | none => simp [h1, h2, hdec]
    | some d => simp [h1, h2, hdec, ihres]

/-- C6: the claimed fail-closed behaviour, amended: decoding fails on a
Keyed-Collection whose first reserved tag entry (in iteration order) has a
non-Sequence payload, provided no earlier entry carries a reserved tag key
— an earlier well-formed tag entry short-circuits the loop and masks the
malformed one (see the counterexample). -/
theorem claim6_malformed_tag_amended (pre post : List (String × Value))
    (k : String) (v : Value)
    (hk : k = "_JSSet" ∨ k = "_JSMap")
    (hv : ∀ l, v ≠ .arr l)
    (hpre : ∀ kv ∈ pre, kv.1 ≠ "_JSSet" ∧ kv.1 ≠ "_JSMap") :
    decode (.obj (pre ++ (k, v) :: post)) = none := by
  rw [decode_obj]
  exact decodeEntries_malformed pre k v post hk hv hpre

/-- C6 counterexample: a collection carrying the reserved `_JSSet` key with
the non-Sequence payload `5` decodes successfully to a Map, because the
earlier well-formed `_JSMap` entry wins: the decode call does not fail. -/
theorem claim6_malformed_tag_counterexample :
    decode (.obj [("_JSMap", .arr []), ("_JSSet", .num 5)]) = some (.map [])
    ∧ decode (.obj [("_JSMap", .arr []), ("_JSSet", .num 5)]) ≠ none := by
  refine ⟨rfl, ?_⟩
  intro h
  rw [show decode (.obj [("_JSMap", .arr []), ("_JSSet", .num 5)])
      = some (.map []) from rfl] at h
  cases h

/-- C6 witness: a malformed `_JSSet` preceded only by ordinary entries
makes the whole decode call fail. -/
theorem claim6_malformed_tag_witness :
    ("_JSSet" = "_JSSet" ∨ "_JSSet" = "_JSMap")
    ∧ (∀ l, Value.num 5 ≠ .arr l)
    ∧ (∀ kv ∈ [(("x" : String), Value.num 1)],
        kv.1 ≠ "_JSSet" ∧ kv.1 ≠ "_JSMap")
    ∧ decode (.obj ([("x", Value.num 1)] ++ ("_JSSet", Value.num 5)
        :: [("y", Value.null)])) = none := by
  refine ⟨Or.inl rfl, fun l => by simp, ?_, ?_⟩
  · rintro kv hm
    simp only [List.mem_singleton] at hm
    subst hm
    exact ⟨by decide, by decide⟩
  · exact claim6_malformed_tag_amended [("x", .num 1)] [("y", .null)]
      "_JSSet" (.num 5) (Or.inl rfl) (fun l => by simp)
      (by rintro kv hm
          simp only [List.mem_singleton] at hm
          subst hm
          exact ⟨by decide, by decide⟩)

/-- The entry loop returns the Set decoded from the first `_JSSet` entry,
discarding every other entry, when the earlier entries are ordinary and
decodable. -/
theorem decodeEntries_setTag :
    ∀ (pre post : List (String × Value)) (l ds : List Value),
      (∀ kv ∈ pre, kv.1 ≠ "_JSSet" ∧ kv.1 ≠ "_JSMap") →
      (∀ kv ∈ pre, ∃ dv, decode kv.2 = some dv) →
      decodeList l = some ds →
      decodeEntries (pre ++ ("_JSSet", .arr l) :: post) = some (.set ds) := by
  intro pre
  induction pre with
  | nil =>
    intro post l ds _ _ hdl
    rw [List.nil_append, decodeEntries.eq_def]
    simp [hdl]
  | cons kv0 rest ih =>
    intro post l ds htag hdec hdl
    obtain ⟨k0, v0⟩ := kv0
    obtain ⟨h1, h2⟩ := htag (k0, v0) (List.mem_cons_self _ _)
    obtain ⟨dv, hdv⟩ := hdec (k0, v0) (List.mem_cons_self _ _)
    have ihres := ih post l ds
      (fun kv hm => htag kv (List.mem_cons_of_mem _ hm))
      (fun kv hm => hdec kv (List.mem_cons_of_mem _ hm)) hdl
    rw [List.cons_append, decodeEntries.eq_def]
    simp [h1, h2, hdv, ihres]

/-- The entry loop returns the Map decoded from the first `_JSMap` entry,
discarding every other entry, when the earlier entries are ordinary and
decodable. -/
theorem decodeEntries_mapTag :
    ∀ (pre post : List (String × Value)) (l : List Value)
      (ps : List (Value × Value)),
      (∀ kv ∈ pre, kv.1 ≠ "_JSSet" ∧ kv.1 ≠ "_JSMap") →
      (∀ kv ∈ pre, ∃ dv, decode kv.2 = some dv) →
      decodeMapPairs l = some ps →
      decodeEntries (pre ++ ("_JSMap", .arr l) :: post) = some (.map ps) := by
  intro pre
  induction pre with
  | nil =>
    intro post l ps _ _ hdl
    rw [List.nil_append, decodeEntries.eq_def]
    simp [hdl]
  | cons kv0 rest ih =>
    intro post l ps htag hdec hdl
    obtain ⟨k0, v0⟩ := kv0
    obtain ⟨h1, h2⟩ := htag (k0, v0) (List.mem_cons_self _ _)
    obtain ⟨dv, hdv⟩ := hdec (k0, v0) (List.mem_cons_self _ _)
    have ihres := ih post l ps
      (fun kv hm => htag kv (List.mem_cons_of_mem _ hm))
      (fun kv hm => hdec kv (List.mem_cons_of_mem _ hm)) hdl
    rw [List.cons_append, decodeEntries.eq_def]
    simp [h1, h2, hdv, ihres]

/-- C10: tag-key precedence in decode, amended: decoding a Keyed-Collection
whose first reserved tag entry is `_JSSet` with a Sequence payload returns
the Unordered-Set built from that payload, discarding all sibling entries
(including everything after the tag), provided the earlier siblings are
ordinary decodable entries — and symmetrically for `_JSMap`.  It is the
first reserved tag entry in iteration order that wins, not the `_JSSet` key
as such (see the counterexample). -/
theorem claim10_tag_precedence_amended :
    (∀ (pre post : List (String × Value)) (l ds : List Value),
      (∀ kv ∈ pre, kv.1 ≠ "_JSSet" ∧ kv.1 ≠ "_JSMap") →
      (∀ kv ∈ pre, ∃ dv, decode kv.2 = some dv) →
      decodeList l = some ds →
      decode (.obj (pre ++ ("_JSSet", .arr l) :: post)) = some (.set ds))
    ∧ (∀ (pre post : List (String × Value)) (l : List Value)
        (ps : List (Value × Value)),
      (∀ kv ∈ pre, kv.1 ≠ "_JSSet" ∧ kv.1 ≠ "_JSMap") →
      (∀ kv ∈ pre, ∃ dv, decode kv.2 = some dv) →
      decodeMapPairs l = some ps →
      decode (.obj (pre ++ ("_JSMap", .arr l) :: post)) = some (.map ps)) := by
  constructor
  · intro pre post l ds htag hdec hdl
    rw [decode_obj]
    exact decodeEntries_setTag pre post l ds htag hdec hdl
  · intro pre post l ps htag hdec hdl
    rw [decode_obj]
    exact decodeEntries_mapTag pre post l ps htag hdec hdl

/-- C10 counterexample: a collection holding `_JSSet` with a Sequence
payload still decodes to a Map when an `_JSMap` entry comes first — the
claim as stated (the `_JSSet` key always wins) is false. -/
theorem claim10_tag_precedence_counterexample :
    decode (.obj [("_JSMap", .arr []), ("_JSSet", .arr [.num 1])])
      = some (.map [])
    ∧ (Value.map []) ≠ (Value.set [Value.num 1]) :=
  ⟨rfl, by simp⟩

/-- C10 witness: ordinary siblings on both sides of the tag are discarded
and the Set is decoded from the tag payload. -/
theorem claim10_tag_precedence_witness :
    (∀ kv ∈ [(("x" : String), Value.num 7)],
      kv.1 ≠ "_JSSet" ∧ kv.1 ≠ "_JSMap")
    ∧ (∀ kv ∈ [(("x" : String), Value.num 7)], ∃ dv, decode kv.2 = some dv)
    ∧ decodeList [Value.num 1] = some [Value.num 1]
    ∧ decode (.obj ([("x", Value.num 7)] ++ ("_JSSet", Value.arr [Value.num 1])
        :: [("y", Value.num 8)])) = some (.set [Value.num 1]) := by
  have htag : ∀ kv ∈ [(("x" : String), Value.num 7)],
      kv.1 ≠ "_JSSet" ∧ kv.1 ≠ "_JSMap" := by
    rintro kv hm
    simp only [List.mem_singleton] at hm
    subst hm
    exact ⟨by decide, by decide⟩
  have hdec : ∀ kv ∈ [(("x" : String), Value.num 7)],
      ∃ dv, decode kv.2 = some dv := by
    rintro kv hm
    simp only [List.mem_singleton] at hm
    subst hm
    exact ⟨.num 7, rfl⟩
  exact ⟨htag, hdec, rfl,
    claim10_tag_precedence_amended.1 [("x", .num 7)] [("y", .num 8)]
      [.num 1] [.num 1] htag hdec rfl⟩

end NeisanMongo
